import Mathlib

/-!
# Load-test coordinator: a shallow embedding of `runLoadTest` (src/main.go)

The Go program issues `config.Requests` HTTP GET requests through
`min(config.Concurrency, config.Requests)` worker goroutines that send their
`Result`s over a buffered channel to a single aggregation loop.

Modelling conventions.

* Go `int` values are Lean `Int`s.  Every value computed on a valid
  configuration stays between `0` and `config.Requests`, so 64-bit wrap-around
  never happens (`workerRequests_le_requests`, `aggregate_counters_range`).
* Go `/` and `%` on `int` truncate towards zero (`Int.tdiv`, `Int.tmod`) and
  panic on a zero divisor; a panic is `none`.
* `error` is `Option String` (`none` is Go's `nil`).
* `map[int]int` is an association list with distinct keys; two maps are the same
  Go map when every key looks up to the same `Option` value.
* The goroutines are a transition system: one `Action` is one atomic step of one
  goroutine, a run is a list of actions (any interleaving the Go scheduler may
  pick), and the outcome of `makeRequest` is an arbitrary `Result` carried by the
  `send` action.
* `make(chan Result, n)` panics when `n < 0` and when the buffer is larger than
  the Go runtime can allocate.  The largest capacity it accepts depends on the
  platform and on the memory of the machine, not on the source: it is the
  parameter `maxChanCap` of `quotas`, `start`, `reach` and `runLoadTest`.
-/

namespace StressTest

/-! ## Data model (main.go, lines 12-32) -/

/-- Config: the load-test configuration. -/
structure Config where
  URL : String
  Requests : Int
  Concurrency : Int
deriving DecidableEq

/-- Result: the outcome of one HTTP request (`Duration` in nanoseconds). -/
structure Result where
  StatusCode : Int
  Duration : Int
  Error : Option String
deriving DecidableEq

/-- Go `map[int]int`: key/value pairs, keys pairwise distinct. -/
abbrev IntMap := List (Int × Int)

/-- Report: the aggregate statistics of a run. -/
structure Report where
  TotalTime : Int
  TotalRequests : Int
  StatusCodes : IntMap
  Errors : Int
deriving DecidableEq

/-! ## Go map operations -/

/-- Key lookup `v, ok := m[k]`: `none` when `k` is not a key. -/
def mapLookup : IntMap → Int → Option Int
  | [], _ => none
  | (k', v) :: t, k => if k' = k then some v else mapLookup t k

/-- Go index expression `m[k]`: the zero value when `k` is not a key. -/
def mapIndex (m : IntMap) (k : Int) : Int :=
  (mapLookup m k).getD 0

/-- Go assignment `m[k] = v`: overwrite the entry of `k`, or add one. -/
def mapAssign : IntMap → Int → Int → IntMap
  | [], k, v => [(k, v)]
  | (k', v') :: t, k, v => if k' = k then (k, v) :: t else (k', v') :: mapAssign t k v

/-- Go statement `m[k]++`, that is `m[k] = m[k] + 1`. -/
def mapIncr (m : IntMap) (k : Int) : IntMap :=
  mapAssign m k (mapIndex m k + 1)

/-- Sum of all values stored in the map. -/
def mapSumValues (m : IntMap) : Int :=
  (m.map Prod.snd).sum

/-- The keys of the map. -/
def mapKeys (m : IntMap) : List Int :=
  m.map Prod.fst

/-! ## Work partitioning (runLoadTest, lines 71-86) -/

/-- Go `a / b` on `int`: truncated division, panics (`none`) when `b = 0`. -/
def goDiv (a b : Int) : Option Int :=
  if b = 0 then none else some (a.tdiv b)

/-- Go `a % b` on `int`: remainder of truncated division, panics (`none`) when `b = 0`. -/
def goMod (a b : Int) : Option Int :=
  if b = 0 then none else some (a.tmod b)

/-- Lines 72-75: `workers := config.Concurrency; if config.Requests < workers { workers = config.Requests }`. -/
def workers (config : Config) : Int :=
  if config.Requests < config.Concurrency then config.Requests else config.Concurrency

/-- Line 78: `requestsPerWorker := config.Requests / workers`. -/
def requestsPerWorker (config : Config) : Option Int :=
  goDiv config.Requests (workers config)

/-- Line 79: `remainingRequests := config.Requests % workers`. -/
def remainingRequests (config : Config) : Option Int :=
  goMod config.Requests (workers config)

/-- Lines 83-86: the quota of worker `i`. -/
def workerRequests (requestsPerWorker remainingRequests i : Int) : Int :=
  if i < remainingRequests then requestsPerWorker + 1 else requestsPerWorker

/-- The loop `for i := ...; i < workers; i++` of lines 81-95, collecting the
quota handed to each spawned goroutine.  `fuel` bounds the number of iterations. -/
def quotaLoop (workers requestsPerWorker remainingRequests : Int) : Nat → Int → List Int
  | 0, _ => []
  | fuel + 1, i =>
    if i < workers then
      workerRequests requestsPerWorker remainingRequests i ::
        quotaLoop workers requestsPerWorker remainingRequests fuel (i + 1)
    else []

/-- Line 66, `make(chan Result, n)`: the capacity of the new channel, or `none`
when the Go runtime refuses the buffer: `n < 0`, or `n` above `maxChanCap`, the
largest capacity the runtime can allocate (a panic "makechan: size out of
range", or memory exhausted). -/
def makeChan (maxChanCap n : Int) : Option Int :=
  if n < 0 ∨ maxChanCap < n then none else some n

/-- A bound no 64-bit Go runtime can exceed: a `Result` takes 32 bytes (an
`int`, a `time.Duration` and an `error`), and the size in bytes of the buffer
must fit an unsigned 64-bit word, so the capacity is below `2^59`.  Actual
limits are lower (`2^43 - 3` on linux/amd64). -/
def maxChanCap64 : Int := 576460752303423487

/-- The quotas of workers `0 .. workers-1` in index order, as runLoadTest
computes them; `none` when the function panics before or while computing them
(`make(chan Result, config.Requests)` at line 66, division by zero at
line 78). -/
def quotas (maxChanCap : Int) (config : Config) : Option (List Int) :=
  if (makeChan maxChanCap config.Requests).isNone then none
  else
    match requestsPerWorker config, remainingRequests config with
    | some q, some r => some (quotaLoop (workers config) q r (workers config).toNat 0)
    | _, _ => none

/-! ## Aggregation (runLoadTest, lines 104-116) -/

/-- Lines 104-106: `Report{StatusCodes: make(map[int]int)}`, every other field zero. -/
def emptyReport : Report :=
  { TotalTime := 0, TotalRequests := 0, StatusCodes := [], Errors := 0 }

/-- Lines 109-115: the body of the loop `for result := range results`. -/
def processResult (report : Report) (result : Result) : Report :=
  let report := { report with TotalRequests := report.TotalRequests + 1 }
  if result.Error.isSome then
    { report with Errors := report.Errors + 1 }
  else
    { report with StatusCodes := mapIncr report.StatusCodes result.StatusCode }

/-- Lines 108-116: the aggregation loop run over the results in the order in
which they are received. -/
def aggregate (report : Report) (results : List Result) : Report :=
  results.foldl processResult report

/-- The invariant of the aggregation loop. -/
def ReportInv (report : Report) : Prop :=
  report.TotalRequests = mapSumValues report.StatusCodes + report.Errors

/-! ## The goroutines of runLoadTest as a transition system -/

/-- One worker goroutine (lines 89-94): its argument `requests`, its loop
counter `j`, and whether its deferred `wg.Done()` has run. -/
structure Worker where
  requests : Int
  j : Int
  done : Bool
deriving DecidableEq

/-- Where the goroutine that called runLoadTest stands: at the test
`i < workers` of the loop of lines 81-95, in the loop of lines 108-116, or
past `return report`. -/
inductive MainPc where
  | spawning (i : Int)
  | draining
  | returned
deriving DecidableEq

/-- Where the goroutine of lines 98-101 stands: not yet started, inside
`wg.Wait()`, or past `close(results)`. -/
inductive CloserPc where
  | notStarted
  | waiting
  | finished
deriving DecidableEq

/-- The state of a run: the locals of runLoadTest, the worker goroutines, the
WaitGroup counter, and the channel `results` (buffer, capacity, closed flag).
`panicked` records a run-time panic (send on a closed channel, negative
WaitGroup counter, close of a closed channel). -/
structure State where
  config : Config
  workers : Int
  requestsPerWorker : Int
  remainingRequests : Int
  pc : MainPc
  pool : List Worker
  wg : Int
  closer : CloserPc
  buf : List Result
  cap : Int
  closed : Bool
  report : Report
  panicked : Bool
deriving DecidableEq

/-- One atomic step of one goroutine.
* `spawn`: one iteration of the loop of lines 81-95 (`wg.Add(1)`, `go func`).
* `startCloser`: the loop test fails; `go func() { wg.Wait(); close(results) }()`
  is started and the main goroutine enters the loop of line 108.
* `send k result`: worker `k` runs `results <- makeRequest(config.URL)`, the
  request having produced `result`, and increments `j`.
* `workerDone k`: worker `k` leaves its loop; the deferred `wg.Done()` runs.
* `closeResults`: `wg.Wait()` returns and `close(results)` runs.
* `receive`: one iteration of the loop of lines 108-116.
* `finish elapsed`: `results` is closed and drained; `TotalTime` is stamped with
  the elapsed time and the report is returned. -/
inductive Action where
  | spawn
  | startCloser
  | send (k : Nat) (result : Result)
  | workerDone (k : Nat)
  | closeResults
  | receive
  | finish (elapsed : Int)
deriving DecidableEq

/-- The state right after lines 63-79, `q` and `r` being `requestsPerWorker` and
`remainingRequests`: no worker spawned, an empty open channel of capacity
`config.Requests`.  The variable `report` of line 104 is part of the state from
the beginning: nothing reads or writes it before line 109. -/
def initial (config : Config) (q r : Int) : State :=
  { config := config
    workers := workers config
    requestsPerWorker := q
    remainingRequests := r
    pc := .spawning 0
    pool := []
    wg := 0
    closer := .notStarted
    buf := []
    cap := config.Requests
    closed := false
    report := emptyReport
    panicked := false }

/-- Lines 63-79: `none` when `make(chan Result, config.Requests)` panics
(line 66) or the division of line 78 panics. -/
def start (maxChanCap : Int) (config : Config) : Option State :=
  if (makeChan maxChanCap config.Requests).isNone then none
  else
    match requestsPerWorker config, remainingRequests config with
    | some q, some r => some (initial config q r)
    | _, _ => none

/-- The effect of one action; `none` when the action cannot happen in this state
(the goroutine is elsewhere, or it is blocked: a send on a full buffer, a
receive on an empty open channel, `wg.Wait()` with a non-zero counter). -/
def step (s : State) (a : Action) : Option State :=
  if s.panicked then none
  else
    match a with
    | .spawn =>
      match s.pc with
      | .spawning i =>
        if i < s.workers then
          some { s with
            pool := s.pool ++
              [{ requests := workerRequests s.requestsPerWorker s.remainingRequests i
                 j := 0
                 done := false }]
            wg := s.wg + 1
            pc := .spawning (i + 1) }
        else none
      | _ => none
    | .startCloser =>
      match s.pc with
      | .spawning i =>
        if i < s.workers then none
        else some { s with closer := .waiting, pc := .draining }
      | _ => none
    | .send k result =>
      match s.pool[k]? with
      | some w =>
        if w.done then none
        else if w.j < w.requests then
          if s.closed then some { s with panicked := true }
          else if (s.buf.length : Int) < s.cap then
            some { s with
              buf := s.buf ++ [result]
              pool := s.pool.set k { w with j := w.j + 1 } }
          else none
        else none
      | none => none
    | .workerDone k =>
      match s.pool[k]? with
      | some w =>
        if w.done then none
        else if w.j < w.requests then none
        else if s.wg - 1 < 0 then some { s with panicked := true }
        else some { s with wg := s.wg - 1, pool := s.pool.set k { w with done := true } }
      | none => none
    | .closeResults =>
      match s.closer with
      | .waiting =>
        if s.wg = 0 then
          if s.closed then some { s with panicked := true }
          else some { s with closed := true, closer := .finished }
        else none
      | _ => none
    | .receive =>
      match s.pc, s.buf with
      | .draining, result :: rest =>
        some { s with buf := rest, report := processResult s.report result }
      | _, _ => none
    | .finish elapsed =>
      match s.pc, s.buf with
      | .draining, [] =>
        if s.closed then
          some { s with report := { s.report with TotalTime := elapsed }, pc := .returned }
        else none
      | _, _ => none

/-- Run a schedule (a list of actions) from a state; `none` when some action of
the schedule cannot happen. -/
def exec (s : State) : List Action → Option State
  | [] => some s
  | a :: rest =>
    match step s a with
    | some s' => exec s' rest
    | none => none

/-- The state a run is in after the actions of `schedule`, from the call of
runLoadTest on; `none` when runLoadTest panics at its start or the schedule
contains an action that cannot happen. -/
def reach (maxChanCap : Int) (config : Config) (schedule : List Action) :
    Option State :=
  match start maxChanCap config with
  | none => none
  | some s0 => exec s0 schedule

/-- The function runLoadTest under a schedule: the report it returns, when the
schedule is a complete run (it ends past `return report`, without panic). -/
def runLoadTest (maxChanCap : Int) (config : Config) (schedule : List Action) :
    Option Report :=
  match reach maxChanCap config schedule with
  | some s => if s.pc = .returned ∧ s.panicked = false then some s.report else none
  | none => none

/-- The results sent to the channel by the actions of a schedule, in the order
of the sends. -/
def sentResults : List Action → List Result
  | [] => []
  | .send _ result :: rest => result :: sentResults rest
  | _ :: rest => sentResults rest

/-- Number of results the workers have sent to `results` so far. -/
def sent (s : State) : Int :=
  (s.pool.map Worker.j).sum

/-- Number of spawned workers whose `wg.Done()` has not run yet. -/
def pending (pool : List Worker) : Int :=
  (pool.map (fun w => if w.done then 0 else 1)).sum

/-- Number of steps a run still has to make. -/
def stepsLeft (s : State) : Int :=
  (match s.pc with
    | .spawning i => ((s.workers - i).toNat : Int) + 2
    | .draining => 1
    | .returned => 0) +
  (s.config.Requests - sent s) +
  (s.workers - s.pool.length) + pending s.pool +
  (match s.closer with
    | .finished => 0
    | _ => 1) +
  (s.config.Requests - s.report.TotalRequests)

/-- The invariant kept by every run of a valid configuration. -/
structure Inv (s : State) : Prop where
  requests_pos : 1 ≤ s.config.Requests
  concurrency_pos : 1 ≤ s.config.Concurrency
  workers_eq : s.workers = workers s.config
  quota_eq : s.requestsPerWorker = s.config.Requests / s.workers
  rest_eq : s.remainingRequests = s.config.Requests % s.workers
  cap_eq : s.cap = s.config.Requests
  no_panic : s.panicked = false
  pool_quota : s.pool.map Worker.requests =
    quotaLoop s.workers s.requestsPerWorker s.remainingRequests s.pool.length 0
  pool_len : (s.pool.length : Int) ≤ s.workers
  at_spawn : ∀ i, s.pc = .spawning i → i = s.pool.length ∧ s.closer = .notStarted
  past_spawn : (∀ i, s.pc ≠ .spawning i) →
    (s.pool.length : Int) = s.workers ∧ s.closer ≠ .notStarted
  worker_j : ∀ w ∈ s.pool, 0 ≤ w.j ∧ w.j ≤ w.requests ∧ (w.done = true → w.j = w.requests)
  wg_eq : s.wg = pending s.pool
  closed_iff : s.closed = true ↔ s.closer = .finished
  closed_wg : s.closed = true → s.wg = 0
  sent_eq : sent s = s.buf.length + s.report.TotalRequests
  received : 0 ≤ s.report.TotalRequests
  at_return : s.pc = .returned → s.closed = true ∧ s.buf = []

/-- A schedule for requests=3, concurrency=2 in which the workers run while the
main goroutine is still spawning, with outcomes 200, an error, and 500. -/
def sampleSchedule : List Action :=
  [ .spawn,
    .send 0 { StatusCode := 200, Duration := 5, Error := none },
    .spawn,
    .send 1 { StatusCode := 0, Duration := 7, Error := some "connection refused" },
    .startCloser,
    .receive,
    .workerDone 1,
    .send 0 { StatusCode := 500, Duration := 9, Error := none },
    .receive,
    .workerDone 0,
    .closeResults,
    .receive,
    .finish 42 ]

/-- The scenario of 7 responses 200, 2 responses 500 and 1 network failure. -/
def mixedResults : List Result :=
  List.replicate 7 { StatusCode := 200, Duration := 1, Error := none } ++
  List.replicate 2 { StatusCode := 500, Duration := 1, Error := none } ++
  [{ StatusCode := 0, Duration := 1, Error := some "connection refused" }]

/-! ## Partitioning lemmas -/

theorem workers_eq_min (config : Config) :
    workers config = min config.Concurrency config.Requests := by
  unfold workers
  split
  · rw [min_eq_right]; omega
  · rw [min_eq_left]; omega

theorem workers_pos (config : Config) (hr : 1 ≤ config.Requests)
    (hc : 1 ≤ config.Concurrency) : 1 ≤ workers config := by
  unfold workers; split <;> omega

/-- More fuel than the loop needs changes nothing: the loop leaves through its
condition `i < workers`. -/
theorem quotaLoop_fuel (w q r : Int) (fuel extra : Nat) (i : Int)
    (h : (w - i).toNat ≤ fuel) :
    quotaLoop w q r (fuel + extra) i = quotaLoop w q r fuel i := by
  induction fuel generalizing i with
  | zero =>
    have hi : ¬ i < w := by omega
    cases extra with
    | zero => rfl
    | succ e => simp [quotaLoop, hi]
  | succ n ih =>
    have e : n + 1 + extra = (n + extra) + 1 := by omega
    rw [e]
    simp only [quotaLoop]
    split
    · rw [ih (i + 1) (by omega)]
    · rfl

/-- Closed form of the quota loop from index `i` on. -/
theorem quotaLoop_eq (w q r : Int) (fuel : Nat) (i : Int)
    (hw : i + fuel ≤ w) :
    quotaLoop w q r fuel i =
      List.replicate (min (r - i).toNat fuel) (q + 1) ++
        List.replicate (fuel - (r - i).toNat) q := by
  induction fuel generalizing i with
  | zero => simp [quotaLoop]
  | succ n ih =>
    have hlt : i < w := by push_cast at hw; omega
    simp only [quotaLoop, hlt, if_true]
    rw [ih (i + 1) (by push_cast at hw ⊢; omega)]
    unfold workerRequests
    by_cases hir : i < r
    · have e1 : min (r - i).toNat (n + 1) = (min (r - (i + 1)).toNat n) + 1 := by
        omega
      have e2 : n + 1 - (r - i).toNat = n - (r - (i + 1)).toNat := by omega
      rw [if_pos hir, e1, e2, List.replicate_succ, List.cons_append]
    · have e1 : (r - i).toNat = 0 := by omega
      have e2 : (r - (i + 1)).toNat = 0 := by omega
      rw [if_neg hir, e1, e2]
      simp [List.replicate_succ]

/-- Arithmetic facts about the base quota and the remainder of a valid
configuration. -/
theorem partition_facts (config : Config) (hr : 1 ≤ config.Requests)
    (hc : 1 ≤ config.Concurrency) :
    config.Requests.tdiv (workers config) = config.Requests / workers config ∧
    config.Requests.tmod (workers config) = config.Requests % workers config ∧
    0 ≤ config.Requests % workers config ∧
    config.Requests % workers config < workers config ∧
    workers config * (config.Requests / workers config) +
      config.Requests % workers config = config.Requests ∧
    1 ≤ config.Requests / workers config := by
  have hw := workers_pos config hr hc
  have hle : workers config ≤ config.Requests := by
    unfold workers; split <;> omega
  refine ⟨Int.tdiv_eq_ediv (by omega) (by omega), Int.tmod_eq_emod (by omega) (by omega),
    Int.emod_nonneg _ (by omega), Int.emod_lt_of_pos _ (by omega), ?_, ?_⟩
  · have := Int.emod_add_ediv config.Requests (workers config)
    omega
  · exact Int.le_ediv_of_mul_le (by omega) (by omega)

theorem makeChan_ok (maxChanCap n : Int) (h0 : 0 ≤ n) (hm : n ≤ maxChanCap) :
    makeChan maxChanCap n = some n := by
  have : ¬ (n < 0 ∨ maxChanCap < n) := by omega
  simp only [makeChan, this, if_false]

theorem makeChan_none (maxChanCap n : Int) (h : maxChanCap < n) :
    makeChan maxChanCap n = none := by
  simp only [makeChan, h, or_true, if_true]

/-- Beyond the capacity the runtime accepts, runLoadTest panics at line 66
before it computes any quota. -/
theorem quotas_none (maxChanCap : Int) (config : Config)
    (h : maxChanCap < config.Requests) : quotas maxChanCap config = none := by
  simp only [quotas, makeChan_none maxChanCap _ h, Option.isNone_none, if_true]

/-- The quota list of a valid configuration, in closed form. -/
theorem quotas_valid (maxChanCap : Int) (config : Config) (hr : 1 ≤ config.Requests)
    (hm : config.Requests ≤ maxChanCap) (hc : 1 ≤ config.Concurrency) :
    quotas maxChanCap config = some
      (List.replicate (config.Requests % workers config).toNat
          (config.Requests / workers config + 1) ++
        List.replicate (workers config - config.Requests % workers config).toNat
          (config.Requests / workers config)) := by
  obtain ⟨hq, hmod, h0, hlt, _, _⟩ := partition_facts config hr hc
  have hw := workers_pos config hr hc
  have hne : workers config ≠ 0 := by omega
  have hmk := makeChan_ok maxChanCap config.Requests (by omega) hm
  simp only [quotas, hmk, Option.isNone_some, Bool.false_eq_true, if_false,
    requestsPerWorker, remainingRequests, goDiv, goMod, hne, hq, hmod]
  rw [quotaLoop_eq (workers config) _ _ (workers config).toNat 0 (by omega)]
  have e1 : min (config.Requests % workers config - 0).toNat (workers config).toNat =
      (config.Requests % workers config).toNat := by omega
  have e2 : (workers config).toNat - (config.Requests % workers config - 0).toNat =
      (workers config - config.Requests % workers config).toNat := by omega
  rw [e1, e2]

/-- Every quota lies between `1` and `config.Requests`: no `workerRequests++`
can overflow. -/
theorem workerRequests_le_requests (config : Config) (hr : 1 ≤ config.Requests)
    (hc : 1 ≤ config.Concurrency) (i : Int) (hi : 0 ≤ i) :
    1 ≤ workerRequests (config.Requests / workers config)
        (config.Requests % workers config) i ∧
    workerRequests (config.Requests / workers config)
        (config.Requests % workers config) i ≤ config.Requests := by
  obtain ⟨_, _, h0, hlt, hsum, hq1⟩ := partition_facts config hr hc
  have hw := workers_pos config hr hc
  unfold workerRequests
  split
  · refine ⟨by omega, ?_⟩
    rcases Int.lt_or_le 1 (workers config) with h2 | h2
    · nlinarith
    · omega
  · refine ⟨hq1, ?_⟩
    nlinarith

/-! ## Partitioning theorems -/

/-- C1 (amended): for every concurrency >= 1 and every requests >= 1 that is
at most the largest channel capacity the runtime accepts, the quotas computed by
runLoadTest for workers 0 .. W-1 (W = min(concurrency, requests)) are defined,
there are W of them, and they sum to exactly requests. -/
theorem quotas_sum_eq_requests (maxChanCap : Int) (config : Config)
    (hr : 1 ≤ config.Requests) (hm : config.Requests ≤ maxChanCap)
    (hc : 1 ≤ config.Concurrency) :
    ∃ qs, quotas maxChanCap config = some qs ∧
      (qs.length : Int) = min config.Concurrency config.Requests ∧
      qs.sum = config.Requests := by
  obtain ⟨_, _, h0, hlt, hsum, _⟩ := partition_facts config hr hc
  refine ⟨_, quotas_valid maxChanCap config hr hm hc, ?_, ?_⟩
  · rw [← workers_eq_min]
    simp only [List.length_append, List.length_replicate]
    omega
  · simp only [List.sum_append, List.sum_replicate, nsmul_eq_mul]
    rw [Int.toNat_of_nonneg h0, Int.toNat_of_nonneg (by omega : (0:Int) ≤ _)]
    nlinarith

theorem quotas_sum_eq_requests_witness :
    ∃ qs, quotas maxChanCap64 ⟨"http://localhost:8080", 10, 3⟩ = some qs ∧
      (qs.length : Int) = min 3 10 ∧ qs.sum = 10 :=
  quotas_sum_eq_requests maxChanCap64 ⟨"http://localhost:8080", 10, 3⟩
    (by decide) (by decide) (by decide)

/-- C1 as stated fails: with requests = 2^62 (and concurrency = 1) the call
`make(chan Result, config.Requests)` of line 66 panics, so runLoadTest computes
no quotas at all. -/
theorem quotas_sum_eq_requests_counterexample :
    ¬ ∃ qs, quotas maxChanCap64 ⟨"http://localhost:8080", 4611686018427387904, 1⟩ = some qs ∧
      (qs.length : Int) = min 1 4611686018427387904 ∧ qs.sum = 4611686018427387904 := by
  rintro ⟨qs, h, _⟩
  rw [quotas_none maxChanCap64 _ (by decide)] at h
  exact Option.noConfusion h

/-- C5 (amended): for every concurrency >= 1 and every requests >= 1 that is
at most the largest channel capacity the runtime accepts, the quotas computed by
runLoadTest differ by at most one: the list has a largest element `mx` and a
smallest element `mn`, and `mx - mn <= 1`. -/
theorem quotas_spread_le_one (maxChanCap : Int) (config : Config)
    (hr : 1 ≤ config.Requests) (hm : config.Requests ≤ maxChanCap)
    (hc : 1 ≤ config.Concurrency) :
    ∃ qs, quotas maxChanCap config = some qs ∧
      ∃ mx ∈ qs, ∃ mn ∈ qs, (∀ q ∈ qs, mn ≤ q ∧ q ≤ mx) ∧ mx - mn ≤ 1 := by
  obtain ⟨_, _, h0, hlt, _, _⟩ := partition_facts config hr hc
  refine ⟨_, quotas_valid maxChanCap config hr hm hc, ?_⟩
  have hrest : (workers config - config.Requests % workers config).toNat ≠ 0 := by omega
  by_cases hz : (config.Requests % workers config).toNat = 0
  · refine ⟨config.Requests / workers config, ?_, config.Requests / workers config, ?_, ?_, ?_⟩
    · simp [List.mem_append, List.mem_replicate, hrest]
    · simp [List.mem_append, List.mem_replicate, hrest]
    · intro q hq
      simp only [List.mem_append, List.mem_replicate] at hq
      rcases hq with ⟨h, _⟩ | ⟨_, h⟩
      · exact absurd hz h
      · omega
    · omega
  · refine ⟨config.Requests / workers config + 1, ?_, config.Requests / workers config,
      ?_, ?_, ?_⟩
    · simp [List.mem_append, List.mem_replicate, hz]
    · simp [List.mem_append, List.mem_replicate, hrest]
    · intro q hq
      simp only [List.mem_append, List.mem_replicate] at hq
      rcases hq with ⟨_, h⟩ | ⟨_, h⟩ <;> omega
    · omega

theorem quotas_spread_le_one_witness :
    ∃ qs, quotas maxChanCap64 ⟨"http://localhost:8080", 11, 4⟩ = some qs ∧
      ∃ mx ∈ qs, ∃ mn ∈ qs, (∀ q ∈ qs, mn ≤ q ∧ q ≤ mx) ∧ mx - mn ≤ 1 :=
  quotas_spread_le_one maxChanCap64 ⟨"http://localhost:8080", 11, 4⟩
    (by decide) (by decide) (by decide)

/-- C5 as stated fails: with requests = 2^62 and concurrency = 4 runLoadTest
panics at line 66, so there is no quota list with a largest and a smallest
element. -/
theorem quotas_spread_le_one_counterexample :
    ¬ ∃ qs, quotas maxChanCap64 ⟨"http://localhost:8080", 4611686018427387904, 4⟩ = some qs ∧
      ∃ mx ∈ qs, ∃ mn ∈ qs, (∀ q ∈ qs, mn ≤ q ∧ q ≤ mx) ∧ mx - mn ≤ 1 := by
  rintro ⟨qs, h, _⟩
  rw [quotas_none maxChanCap64 _ (by decide)] at h
  exact Option.noConfusion h

/-- C6 (amended): for every concurrency >= 1 and every requests >= 1 that is
at most the largest channel capacity the runtime accepts, with
W = min(concurrency, requests), Q = requests / W and R = requests % W, the
quotas of workers 0 .. W-1 in index order are R copies of Q+1 followed by W-R
copies of Q; requests=10, concurrency=3 gives [4,3,3], and requests=3,
concurrency=10 gives W=3 and [1,1,1]. -/
theorem quotas_layout :
    (∀ (maxChanCap : Int) (config : Config), 1 ≤ config.Requests →
      config.Requests ≤ maxChanCap → 1 ≤ config.Concurrency →
      quotas maxChanCap config = some
        (List.replicate
            (config.Requests % min config.Concurrency config.Requests).toNat
            (config.Requests / min config.Concurrency config.Requests + 1) ++
          List.replicate
            (min config.Concurrency config.Requests -
              config.Requests % min config.Concurrency config.Requests).toNat
            (config.Requests / min config.Concurrency config.Requests))) ∧
    (∀ (maxChanCap : Int) (url : String), 10 ≤ maxChanCap →
      quotas maxChanCap ⟨url, 10, 3⟩ = some [4, 3, 3]) ∧
    (∀ (maxChanCap : Int) (url : String), 3 ≤ maxChanCap →
      workers ⟨url, 3, 10⟩ = 3 ∧ quotas maxChanCap ⟨url, 3, 10⟩ = some [1, 1, 1]) := by
  refine ⟨?_, ?_, ?_⟩
  · intro maxChanCap config hr hm hc
    rw [← workers_eq_min]
    exact quotas_valid maxChanCap config hr hm hc
  · intro maxChanCap url hm
    have hmk := makeChan_ok maxChanCap 10 (by decide) hm
    simp only [quotas, hmk, Option.isNone_some, Bool.false_eq_true, if_false]
    rfl
  · intro maxChanCap url hm
    refine ⟨rfl, ?_⟩
    have hmk := makeChan_ok maxChanCap 3 (by decide) hm
    simp only [quotas, hmk, Option.isNone_some, Bool.false_eq_true, if_false]
    rfl

theorem quotas_layout_witness :
    quotas maxChanCap64 ⟨"http://localhost:8080", 7, 3⟩ = some [3, 2, 2] :=
  quotas_layout.1 maxChanCap64 ⟨"http://localhost:8080", 7, 3⟩
    (by decide) (by decide) (by decide)

/-- C6 as stated fails: with requests = 2^62 and concurrency = 1 (so W = 1,
Q = 2^62, R = 0) runLoadTest panics at line 66 and assigns no quota, where the
claim gives the list of R copies of Q+1 and W-R copies of Q. -/
theorem quotas_layout_counterexample :
    quotas maxChanCap64 ⟨"http://localhost:8080", 4611686018427387904, 1⟩ ≠
      some
        (List.replicate ((4611686018427387904 : Int) % min 1 4611686018427387904).toNat ((4611686018427387904 : Int) / min 1 4611686018427387904 + 1) ++
          List.replicate
            (min 1 4611686018427387904 - (4611686018427387904 : Int) % min 1 4611686018427387904).toNat ((4611686018427387904 : Int) / min 1 4611686018427387904)) := by
  rw [quotas_none maxChanCap64 _ (by decide)]
  exact fun h => Option.noConfusion h

/-- C7: for every requests >= 1 and concurrency >= 1 the worker count computed
by runLoadTest equals min(concurrency, requests), satisfies
1 <= W <= concurrency and W <= requests, and the division and the modulo that
compute requestsPerWorker and remainingRequests have a non-zero divisor, so
neither panics. -/
theorem workers_bounds (config : Config) (hr : 1 ≤ config.Requests)
    (hc : 1 ≤ config.Concurrency) :
    workers config = min config.Concurrency config.Requests ∧
    1 ≤ workers config ∧ workers config ≤ config.Concurrency ∧
    workers config ≤ config.Requests ∧ workers config ≠ 0 ∧
    requestsPerWorker config = some (config.Requests.tdiv (workers config)) ∧
    remainingRequests config = some (config.Requests.tmod (workers config)) := by
  have hw := workers_pos config hr hc
  have hne : workers config ≠ 0 := by omega
  refine ⟨workers_eq_min config, hw, ?_, ?_, hne, ?_, ?_⟩
  · unfold workers; split <;> omega
  · unfold workers; split <;> omega
  · simp [requestsPerWorker, goDiv, hne]
  · simp [remainingRequests, goMod, hne]

theorem workers_bounds_witness :
    workers ⟨"http://localhost:8080", 3, 10⟩ = min 10 3 ∧
    1 ≤ workers ⟨"http://localhost:8080", 3, 10⟩ ∧
    workers ⟨"http://localhost:8080", 3, 10⟩ ≤ 10 ∧
    workers ⟨"http://localhost:8080", 3, 10⟩ ≤ 3 ∧
    workers ⟨"http://localhost:8080", 3, 10⟩ ≠ 0 ∧
    requestsPerWorker ⟨"http://localhost:8080", 3, 10⟩ =
      some ((3 : Int).tdiv (workers ⟨"http://localhost:8080", 3, 10⟩)) ∧
    remainingRequests ⟨"http://localhost:8080", 3, 10⟩ =
      some ((3 : Int).tmod (workers ⟨"http://localhost:8080", 3, 10⟩)) :=
  workers_bounds ⟨"http://localhost:8080", 3, 10⟩ (by decide) (by decide)

/-- C8 (amended): for every concurrency >= 1 and every requests >= 1 that is
at most the largest channel capacity the runtime accepts, each of the W workers
spawned by runLoadTest is assigned a quota of at least one request. -/
theorem quotas_ge_one (maxChanCap : Int) (config : Config)
    (hr : 1 ≤ config.Requests) (hm : config.Requests ≤ maxChanCap)
    (hc : 1 ≤ config.Concurrency) :
    ∃ qs, quotas maxChanCap config = some qs ∧ (qs.length : Int) = workers config ∧
      ∀ q ∈ qs, 1 ≤ q := by
  obtain ⟨_, _, h0, hlt, _, hq1⟩ := partition_facts config hr hc
  refine ⟨_, quotas_valid maxChanCap config hr hm hc, ?_, ?_⟩
  · simp only [List.length_append, List.length_replicate]
    omega
  · intro q hq
    simp only [List.mem_append, List.mem_replicate] at hq
    rcases hq with ⟨_, h⟩ | ⟨_, h⟩ <;> omega

theorem quotas_ge_one_witness :
    ∃ qs, quotas maxChanCap64 ⟨"http://localhost:8080", 3, 10⟩ = some qs ∧
      (qs.length : Int) = workers ⟨"http://localhost:8080", 3, 10⟩ ∧
      ∀ q ∈ qs, 1 ≤ q :=
  quotas_ge_one maxChanCap64 ⟨"http://localhost:8080", 3, 10⟩
    (by decide) (by decide) (by decide)

/-- C8 as stated fails: with requests = 2^62 and concurrency = 2 runLoadTest
panics at line 66 before the loop of line 81, so none of the W = 2 workers is
spawned or given a quota. -/
theorem quotas_ge_one_counterexample :
    ¬ ∃ qs, quotas maxChanCap64 ⟨"http://localhost:8080", 4611686018427387904, 2⟩ = some qs ∧
      (qs.length : Int) = workers ⟨"http://localhost:8080", 4611686018427387904, 2⟩ ∧
      ∀ q ∈ qs, 1 ≤ q := by
  rintro ⟨qs, h, _⟩
  rw [quotas_none maxChanCap64 _ (by decide)] at h
  exact Option.noConfusion h

/-! ## Map and aggregation lemmas -/

theorem mapLookup_mapAssign (m : IntMap) (k v c : Int) :
    mapLookup (mapAssign m k v) c = if k = c then some v else mapLookup m c := by
  induction m with
  | nil => simp [mapAssign, mapLookup]
  | cons p t ih =>
    obtain ⟨k', v'⟩ := p
    by_cases h : k' = k
    · subst h
      by_cases hc : k' = c <;> simp [mapAssign, mapLookup, hc]
    · by_cases hc : k' = c
      · subst hc
        simp [mapAssign, mapLookup, h, Ne.symm h]
      · simp [mapAssign, mapLookup, h, hc, ih]

theorem mapLookup_mapIncr (m : IntMap) (k c : Int) :
    mapLookup (mapIncr m k) c = if k = c then some (mapIndex m k + 1) else mapLookup m c :=
  mapLookup_mapAssign m k _ c

theorem mapSumValues_mapAssign (m : IntMap) (k v : Int) :
    mapSumValues (mapAssign m k v) = mapSumValues m - mapIndex m k + v := by
  induction m with
  | nil => simp [mapAssign, mapSumValues, mapIndex, mapLookup]
  | cons p t ih =>
    obtain ⟨k', v'⟩ := p
    by_cases h : k' = k
    · simp [mapAssign, mapSumValues, mapIndex, mapLookup, h]
      omega
    · simp only [mapSumValues, mapIndex] at ih
      simp [mapAssign, mapSumValues, mapIndex, mapLookup, h, ih]
      omega

theorem mapSumValues_mapIncr (m : IntMap) (k : Int) :
    mapSumValues (mapIncr m k) = mapSumValues m + 1 := by
  unfold mapIncr
  rw [mapSumValues_mapAssign]
  omega

theorem mem_mapKeys_mapAssign (m : IntMap) (k v c : Int) :
    c ∈ mapKeys (mapAssign m k v) ↔ c = k ∨ c ∈ mapKeys m := by
  induction m with
  | nil => simp [mapAssign, mapKeys]
  | cons p t ih =>
    obtain ⟨k', v'⟩ := p
    by_cases h : k' = k
    · simp [mapAssign, mapKeys, h]
    · simp only [mapKeys] at ih
      simp only [mapAssign, mapKeys, h, if_false, List.map_cons, List.mem_cons, ih]
      tauto

theorem nodup_mapKeys_mapAssign (m : IntMap) (k v : Int) (h : (mapKeys m).Nodup) :
    (mapKeys (mapAssign m k v)).Nodup := by
  induction m with
  | nil => simp [mapAssign, mapKeys]
  | cons p t ih =>
    obtain ⟨k', v'⟩ := p
    simp only [mapKeys, List.map_cons, List.nodup_cons] at h
    by_cases hk : k' = k
    · subst hk
      simp only [mapAssign, if_true, mapKeys, List.map_cons, List.nodup_cons]
      exact h
    · simp only [mapAssign, hk, if_false, mapKeys, List.map_cons, List.nodup_cons]
      refine ⟨?_, ih h.2⟩
      intro hmem
      have := (mem_mapKeys_mapAssign t k v k').1 hmem
      rcases this with e | e
      · exact hk e
      · exact h.1 e

theorem mapLookup_eq_none_iff (m : IntMap) (c : Int) :
    mapLookup m c = none ↔ c ∉ mapKeys m := by
  induction m with
  | nil => simp [mapLookup, mapKeys]
  | cons p t ih =>
    obtain ⟨k', v'⟩ := p
    simp only [mapKeys] at ih
    by_cases h : k' = c
    · simp [mapLookup, mapKeys, h]
    · simp [mapLookup, mapKeys, h, ih, Ne.symm h]

theorem aggregate_cons (report : Report) (x : Result) (rs : List Result) :
    aggregate report (x :: rs) = aggregate (processResult report x) rs := rfl

theorem processResult_inv (report : Report) (result : Result) (h : ReportInv report) :
    ReportInv (processResult report result) := by
  unfold ReportInv at *
  unfold processResult
  by_cases he : result.Error.isSome
  · simp only [he, if_true]
    omega
  · simp only [he]
    simp only [Bool.false_eq_true, if_false, mapSumValues_mapIncr]
    omega

theorem aggregate_inv (report : Report) (rs : List Result) (h : ReportInv report) :
    ReportInv (aggregate report rs) := by
  induction rs generalizing report with
  | nil => exact h
  | cons x rs ih => exact ih _ (processResult_inv report x h)

theorem processResult_fields (report : Report) (x : Result) :
    (processResult report x).TotalTime = report.TotalTime ∧
    (processResult report x).TotalRequests = report.TotalRequests + 1 ∧
    (processResult report x).Errors =
      (if x.Error.isSome then report.Errors + 1 else report.Errors) ∧
    (processResult report x).StatusCodes =
      (if x.Error.isSome then report.StatusCodes
        else mapIncr report.StatusCodes x.StatusCode) := by
  unfold processResult
  by_cases he : x.Error.isSome <;> simp [he]

/-- What the aggregation loop computes from a starting report, in terms of
counts over the received results. -/
theorem aggregate_spec (report : Report) (rs : List Result) :
    (aggregate report rs).TotalTime = report.TotalTime ∧
    (aggregate report rs).TotalRequests = report.TotalRequests + rs.length ∧
    (aggregate report rs).Errors =
      report.Errors + rs.countP (fun r => r.Error.isSome) ∧
    ∀ c, mapLookup (aggregate report rs).StatusCodes c =
      if rs.countP (fun r => decide (r.Error = none ∧ r.StatusCode = c)) = 0 then
        mapLookup report.StatusCodes c
      else
        some (mapIndex report.StatusCodes c +
          rs.countP (fun r => decide (r.Error = none ∧ r.StatusCode = c))) := by
  induction rs generalizing report with
  | nil => simp [aggregate]
  | cons x rs ih =>
    rw [aggregate_cons]
    obtain ⟨h1, h2, h3, h4⟩ := ih (processResult report x)
    obtain ⟨p1, p2, p3, p4⟩ := processResult_fields report x
    rw [p1] at h1
    rw [p2] at h2
    rw [p3] at h3
    rw [p4] at h4
    by_cases he : x.Error.isSome
    · have hne : x.Error ≠ none := by
        intro h; rw [h] at he; simp at he
      simp only [he, if_true] at h3 h4
      refine ⟨h1, ?_, ?_, ?_⟩
      · rw [h2]; simp only [List.length_cons]; push_cast; omega
      · rw [h3, List.countP_cons]; simp only [he, if_true]; push_cast; omega
      · intro c
        rw [h4 c, List.countP_cons]
        simp [hne]
    · have hn : x.Error = none := by
        cases hx : x.Error with
        | none => rfl
        | some e => rw [hx] at he; simp at he
      simp only [he] at h3 h4
      simp only [Bool.false_eq_true, if_false] at h3 h4
      refine ⟨h1, ?_, ?_, ?_⟩
      · rw [h2]; simp only [List.length_cons]; push_cast; omega
      · rw [h3, List.countP_cons]; simp [he]
      · intro c
        rw [h4 c]
        simp only [mapLookup_mapIncr, mapIndex]
        by_cases hc : x.StatusCode = c
        · subst hc
          rw [List.countP_cons]
          simp only [hn, and_self, decide_True, if_true, Option.getD_some]
          generalize List.countP
            (fun r : Result => decide (r.Error = none ∧ r.StatusCode = x.StatusCode)) rs = n
          by_cases h0 : n = 0
          · subst h0
            simp
          · simp only [h0, if_false, Nat.add_one_ne_zero]
            congr 1
            push_cast
            omega
        · rw [List.countP_cons]
          simp [hc]

theorem aggregate_nodup (report : Report) (rs : List Result)
    (h : (mapKeys report.StatusCodes).Nodup) :
    (mapKeys (aggregate report rs).StatusCodes).Nodup := by
  induction rs generalizing report with
  | nil => exact h
  | cons x rs ih =>
    rw [aggregate_cons]
    apply ih
    unfold processResult
    by_cases he : x.Error.isSome
    · simpa [he] using h
    · simp only [he]
      exact nodup_mapKeys_mapAssign _ _ _ h

/-- The counters of the aggregation loop stay between `0` and the number of
results received, so no `++` of lines 109-114 can overflow. -/
theorem aggregate_counters_range (rs : List Result) (c : Int) :
    0 ≤ (aggregate emptyReport rs).TotalRequests ∧
    (aggregate emptyReport rs).TotalRequests = rs.length ∧
    0 ≤ (aggregate emptyReport rs).Errors ∧
    (aggregate emptyReport rs).Errors ≤ rs.length ∧
    0 ≤ mapIndex (aggregate emptyReport rs).StatusCodes c ∧
    mapIndex (aggregate emptyReport rs).StatusCodes c ≤ rs.length := by
  obtain ⟨_, h2, h3, h4⟩ := aggregate_spec emptyReport rs
  have hc1 := List.countP_le_length (fun r : Result => r.Error.isSome) (l := rs)
  have hc2 := List.countP_le_length
    (fun r : Result => decide (r.Error = none ∧ r.StatusCode = c)) (l := rs)
  have hm : mapLookup emptyReport.StatusCodes c = none := rfl
  have hi : mapIndex emptyReport.StatusCodes c = 0 := rfl
  have he : emptyReport.Errors = 0 := rfl
  have ht : emptyReport.TotalRequests = 0 := rfl
  rw [ht] at h2
  rw [he] at h3
  have h5 := h4 c
  rw [hm, hi] at h5
  refine ⟨by omega, by omega, by omega, by omega, ?_, ?_⟩
  · unfold mapIndex; rw [h5]; split
    · exact le_refl _
    · simp only [Option.getD_some]; omega
  · unfold mapIndex; rw [h5]; split
    · simp only [Option.getD_none]; omega
    · simp only [Option.getD_some]; omega

theorem mem_mapKeys_aggregate (rs : List Result) (c : Int) :
    c ∈ mapKeys (aggregate emptyReport rs).StatusCodes ↔
      ∃ r ∈ rs, r.Error = none ∧ r.StatusCode = c := by
  have h := (aggregate_spec emptyReport rs).2.2.2 c
  have hm : mapLookup emptyReport.StatusCodes c = none := rfl
  rw [hm] at h
  have hk := mapLookup_eq_none_iff (aggregate emptyReport rs).StatusCodes c
  have hpos := List.countP_pos_iff (p := fun r : Result => decide (r.Error = none ∧ r.StatusCode = c))
    (l := rs)
  constructor
  · intro hc
    by_cases h0 : rs.countP (fun r => decide (r.Error = none ∧ r.StatusCode = c)) = 0
    · rw [if_pos h0] at h
      exact absurd hc (hk.1 h)
    · obtain ⟨r, hr, hp⟩ := hpos.1 (Nat.pos_of_ne_zero h0)
      exact ⟨r, hr, of_decide_eq_true hp⟩
  · rintro ⟨r, hr, hp⟩
    have h0 : rs.countP (fun r => decide (r.Error = none ∧ r.StatusCode = c)) ≠ 0 :=
      Nat.pos_iff_ne_zero.1 (hpos.2 ⟨r, hr, decide_eq_true hp⟩)
    rw [if_neg h0] at h
    by_contra hc
    rw [hk.2 hc] at h
    exact Option.noConfusion h

/-! ## Aggregation theorems -/

/-- C3: the aggregation loop keeps TotalRequests == (sum of the values of
StatusCodes) + Errors: it holds for the initial empty report, processing one
Result preserves it, and so it holds after any sequence of results. -/
theorem aggregation_invariant :
    emptyReport.TotalRequests =
      mapSumValues emptyReport.StatusCodes + emptyReport.Errors ∧
    (∀ (report : Report) (result : Result),
      report.TotalRequests = mapSumValues report.StatusCodes + report.Errors →
      (processResult report result).TotalRequests =
        mapSumValues (processResult report result).StatusCodes +
          (processResult report result).Errors) ∧
    (∀ rs : List Result,
      (aggregate emptyReport rs).TotalRequests =
        mapSumValues (aggregate emptyReport rs).StatusCodes +
          (aggregate emptyReport rs).Errors) :=
  ⟨rfl, fun report result h => processResult_inv report result h,
    fun rs => aggregate_inv emptyReport rs rfl⟩

theorem aggregation_invariant_witness :
    (3 : Int) = mapSumValues [(200, 2)] + 1 ∧
    (processResult ⟨0, 3, [(200, 2)], 1⟩ ⟨404, 5, none⟩).TotalRequests =
      mapSumValues (processResult ⟨0, 3, [(200, 2)], 1⟩ ⟨404, 5, none⟩).StatusCodes +
        (processResult ⟨0, 3, [(200, 2)], 1⟩ ⟨404, 5, none⟩).Errors :=
  ⟨by decide,
    aggregation_invariant.2.1 ⟨0, 3, [(200, 2)], 1⟩ ⟨404, 5, none⟩ (by decide)⟩

/-- C4: for every sequence of Results fed to the aggregation loop, Errors is the
number of results whose Error is set, StatusCodes[c] is the number of results
with no error and StatusCode == c, and c is a key of the map exactly when such a
result exists (keys are not repeated); when every result carries an error,
Errors == TotalRequests and StatusCodes is empty.  Seven results with 200, two
with 500 and one with an error give StatusCodes = {200:7, 500:2}, Errors = 1,
TotalRequests = 10, in whatever order they arrive. -/
theorem aggregate_counts :
    (∀ rs : List Result,
      (aggregate emptyReport rs).Errors = rs.countP (fun r => r.Error.isSome) ∧
      (∀ c, mapIndex (aggregate emptyReport rs).StatusCodes c =
        rs.countP (fun r => decide (r.Error = none ∧ r.StatusCode = c))) ∧
      (∀ c, c ∈ mapKeys (aggregate emptyReport rs).StatusCodes ↔
        ∃ r ∈ rs, r.Error = none ∧ r.StatusCode = c) ∧
      (mapKeys (aggregate emptyReport rs).StatusCodes).Nodup ∧
      ((∀ r ∈ rs, r.Error ≠ none) →
        (aggregate emptyReport rs).Errors = (aggregate emptyReport rs).TotalRequests ∧
        (aggregate emptyReport rs).StatusCodes = [])) ∧
    aggregate emptyReport mixedResults =
      { TotalTime := 0, TotalRequests := 10, StatusCodes := [(200, 7), (500, 2)],
        Errors := 1 } ∧
    (∀ rs : List Result, rs.Perm mixedResults →
      (aggregate emptyReport rs).TotalRequests = 10 ∧
      (aggregate emptyReport rs).Errors = 1 ∧
      mapLookup (aggregate emptyReport rs).StatusCodes 200 = some 7 ∧
      mapLookup (aggregate emptyReport rs).StatusCodes 500 = some 2 ∧
      ∀ c, c ≠ 200 → c ≠ 500 →
        mapLookup (aggregate emptyReport rs).StatusCodes c = none) := by
  refine ⟨?_, by decide, ?_⟩
  · intro rs
    obtain ⟨_, h2, h3, h4⟩ := aggregate_spec emptyReport rs
    have he : emptyReport.Errors = 0 := rfl
    have ht : emptyReport.TotalRequests = 0 := rfl
    rw [ht] at h2
    rw [he] at h3
    refine ⟨by omega, ?_, mem_mapKeys_aggregate rs, aggregate_nodup emptyReport rs
      List.nodup_nil, ?_⟩
    · intro c
      have h5 := h4 c
      have hm : mapLookup emptyReport.StatusCodes c = none := rfl
      have hi : mapIndex emptyReport.StatusCodes c = 0 := rfl
      rw [hm, hi] at h5
      unfold mapIndex
      rw [h5]
      split
      · next h0 => rw [h0]; rfl
      · simp only [Option.getD_some]; omega
    · intro hall
      have hcnt : rs.countP (fun r => r.Error.isSome) = rs.length := by
        rw [List.countP_eq_length]
        intro r hr
        cases hx : r.Error with
        | none => exact absurd hx (hall r hr)
        | some e => rfl
      refine ⟨by omega, ?_⟩
      cases hsc : (aggregate emptyReport rs).StatusCodes with
      | nil => rfl
      | cons p t =>
        have hmem : p.1 ∈ mapKeys (aggregate emptyReport rs).StatusCodes := by
          rw [hsc]; simp [mapKeys]
        obtain ⟨r, hr, hn, _⟩ := (mem_mapKeys_aggregate rs p.1).1 hmem
        exact absurd hn (hall r hr)
  · intro rs hperm
    obtain ⟨_, h2, h3, h4⟩ := aggregate_spec emptyReport rs
    have he : emptyReport.Errors = 0 := rfl
    have ht : emptyReport.TotalRequests = 0 := rfl
    rw [ht, hperm.length_eq] at h2
    rw [he, hperm.countP_eq] at h3
    have hlen : mixedResults.length = 10 := by decide
    have hcnt : mixedResults.countP (fun r => r.Error.isSome) = 1 := by decide
    rw [hlen] at h2
    rw [hcnt] at h3
    refine ⟨by omega, by omega, ?_, ?_, ?_⟩
    · rw [h4 200, hperm.countP_eq]
      have : mixedResults.countP (fun r => decide (r.Error = none ∧ r.StatusCode = 200)) = 7 := by
        decide
      rw [this]; rfl
    · rw [h4 500, hperm.countP_eq]
      have : mixedResults.countP (fun r => decide (r.Error = none ∧ r.StatusCode = 500)) = 2 := by
        decide
      rw [this]; rfl
    · intro c h200 h500
      rw [h4 c, hperm.countP_eq]
      have : mixedResults.countP (fun r => decide (r.Error = none ∧ r.StatusCode = c)) = 0 := by
        rw [List.countP_eq_zero]
        intro r hr
        simp only [mixedResults, List.mem_append, List.mem_replicate, List.mem_singleton] at hr
        rcases hr with (⟨_, h⟩ | ⟨_, h⟩) | h <;> subst h <;> simp [Ne.symm h200, Ne.symm h500]
      rw [if_pos this]; rfl

theorem aggregate_counts_witness :
    (∀ r ∈ [({ StatusCode := 0, Duration := 3, Error := some "timeout" } : Result),
        { StatusCode := 0, Duration := 4, Error := some "connection refused" }],
      r.Error ≠ none) ∧
    (aggregate emptyReport
      [{ StatusCode := 0, Duration := 3, Error := some "timeout" },
        { StatusCode := 0, Duration := 4, Error := some "connection refused" }]).Errors =
    (aggregate emptyReport
      [{ StatusCode := 0, Duration := 3, Error := some "timeout" },
        { StatusCode := 0, Duration := 4, Error := some "connection refused" }]).TotalRequests ∧
    (aggregate emptyReport
      [{ StatusCode := 0, Duration := 3, Error := some "timeout" },
        { StatusCode := 0, Duration := 4, Error := some "connection refused" }]).StatusCodes = [] :=
  ⟨by decide,
    (aggregate_counts.1
      [{ StatusCode := 0, Duration := 3, Error := some "timeout" },
        { StatusCode := 0, Duration := 4, Error := some "connection refused" }]).2.2.2.2
      (by decide)⟩

/-- C9: the report produced by the aggregation loop does not depend on the order
in which results arrive: for two sequences of Results that are permutations of
each other, TotalRequests and Errors are equal and the StatusCodes maps have the
same keys with the same values. -/
theorem aggregate_perm (rs1 rs2 : List Result) (h : rs1.Perm rs2) :
    (aggregate emptyReport rs1).TotalRequests = (aggregate emptyReport rs2).TotalRequests ∧
    (aggregate emptyReport rs1).Errors = (aggregate emptyReport rs2).Errors ∧
    (∀ c, mapLookup (aggregate emptyReport rs1).StatusCodes c =
      mapLookup (aggregate emptyReport rs2).StatusCodes c) ∧
    (mapKeys (aggregate emptyReport rs1).StatusCodes).Perm
      (mapKeys (aggregate emptyReport rs2).StatusCodes) := by
  obtain ⟨_, a2, a3, a4⟩ := aggregate_spec emptyReport rs1
  obtain ⟨_, b2, b3, b4⟩ := aggregate_spec emptyReport rs2
  refine ⟨?_, ?_, ?_, ?_⟩
  · rw [a2, b2, h.length_eq]
  · rw [a3, b3, h.countP_eq]
  · intro c
    rw [a4 c, b4 c, h.countP_eq]
  · rw [List.perm_ext_iff_of_nodup (aggregate_nodup emptyReport rs1 List.nodup_nil)
      (aggregate_nodup emptyReport rs2 List.nodup_nil)]
    intro c
    rw [mem_mapKeys_aggregate, mem_mapKeys_aggregate]
    constructor
    · rintro ⟨r, hr, hp⟩
      exact ⟨r, h.subset hr, hp⟩
    · rintro ⟨r, hr, hp⟩
      exact ⟨r, h.symm.subset hr, hp⟩

theorem aggregate_perm_witness :
    List.Perm
      [({ StatusCode := 200, Duration := 1, Error := none } : Result),
        { StatusCode := 0, Duration := 2, Error := some "timeout" },
        { StatusCode := 500, Duration := 3, Error := none }]
      [{ StatusCode := 500, Duration := 3, Error := none },
        { StatusCode := 200, Duration := 1, Error := none },
        { StatusCode := 0, Duration := 2, Error := some "timeout" }] ∧
    (aggregate emptyReport
      [{ StatusCode := 200, Duration := 1, Error := none },
        { StatusCode := 0, Duration := 2, Error := some "timeout" },
        { StatusCode := 500, Duration := 3, Error := none }]).Errors =
    (aggregate emptyReport
      [{ StatusCode := 500, Duration := 3, Error := none },
        { StatusCode := 200, Duration := 1, Error := none },
        { StatusCode := 0, Duration := 2, Error := some "timeout" }]).Errors :=
  ⟨by decide,
    (aggregate_perm _ _ (by decide)).2.1⟩

/-! ## List lemmas for the worker pool -/

theorem sum_map_set {α : Type} (f : α → Int) (l : List α) (k : Nat) (w x : α)
    (h : l[k]? = some w) :
    ((l.set k x).map f).sum = (l.map f).sum - f w + f x := by
  induction l generalizing k with
  | nil => simp at h
  | cons a t ih =>
    cases k with
    | zero =>
      simp only [List.getElem?_cons_zero, Option.some.injEq] at h
      subst h
      simp only [List.set_cons_zero, List.map_cons, List.sum_cons]
      omega
    | succ n =>
      simp only [List.getElem?_cons_succ] at h
      simp only [List.set_cons_succ, List.map_cons, List.sum_cons, ih n h]
      omega

theorem map_set_same {α β : Type} (f : α → β) (l : List α) (k : Nat) (w x : α)
    (h : l[k]? = some w) (hf : f x = f w) :
    (l.set k x).map f = l.map f := by
  induction l generalizing k with
  | nil => simp at h
  | cons a t ih =>
    cases k with
    | zero =>
      simp only [List.getElem?_cons_zero, Option.some.injEq] at h
      subst h
      simp [hf]
    | succ n =>
      simp only [List.getElem?_cons_succ] at h
      simp only [List.set_cons_succ, List.map_cons, ih n h]

theorem pending_nonneg (pool : List Worker) : 0 ≤ pending pool := by
  induction pool with
  | nil => simp [pending]
  | cons w t ih =>
    simp only [pending, List.map_cons, List.sum_cons] at ih ⊢
    split <;> omega

theorem pending_zero (pool : List Worker) (h : pending pool = 0) :
    ∀ w ∈ pool, w.done = true := by
  induction pool with
  | nil => simp
  | cons a t ih =>
    have ht := pending_nonneg t
    simp only [pending, List.map_cons, List.sum_cons] at h ht
    intro w hw
    rcases List.mem_cons.1 hw with e | e
    · subst e
      by_cases hd : w.done = true
      · exact hd
      · simp only [hd] at h
        simp only [Bool.false_eq_true, if_false] at h
        omega
    · apply ih _ w e
      simp only [pending]
      split at h <;> omega

theorem pending_pos (pool : List Worker) (h : pending pool ≠ 0) :
    ∃ (k : Nat) (w : Worker), pool[k]? = some w ∧ w.done = false := by
  induction pool with
  | nil => simp [pending] at h
  | cons a t ih =>
    by_cases hd : a.done = true
    · have : pending t ≠ 0 := by
        simp only [pending, List.map_cons, List.sum_cons, hd, if_true, zero_add] at h
        exact h
      obtain ⟨k, w, hk, hw⟩ := ih this
      exact ⟨k + 1, w, by rw [List.getElem?_cons_succ]; exact hk, hw⟩
    · exact ⟨0, a, List.getElem?_cons_zero, by simpa using hd⟩

/-! ## Lemmas on the transition system -/

theorem quotaLoop_succ (w q r : Int) (n : Nat) (i : Int) (h : i + n < w) :
    quotaLoop w q r (n + 1) i = quotaLoop w q r n i ++ [workerRequests q r (i + n)] := by
  induction n generalizing i with
  | zero =>
    have hi : i < w := by simpa using h
    simp [quotaLoop, hi]
  | succ m ih =>
    have hi : i < w := by push_cast at h; omega
    have e : i + 1 + (m : Int) = i + ((m + 1 : Nat) : Int) := by push_cast; omega
    rw [quotaLoop, if_pos hi, ih (i + 1) (by push_cast at h ⊢; omega), e]
    conv_rhs => rw [quotaLoop, if_pos hi]
    rfl

/-- The quotas of the first `n` workers never exceed the total, and those of all
`workers` add up to it. -/
theorem quotaLoop_sum_le (config : Config) (hr : 1 ≤ config.Requests)
    (hc : 1 ≤ config.Concurrency) (n : Nat) (hn : (n : Int) ≤ workers config) :
    (quotaLoop (workers config) (config.Requests / workers config)
      (config.Requests % workers config) n 0).sum ≤ config.Requests ∧
    ((n : Int) = workers config →
      (quotaLoop (workers config) (config.Requests / workers config)
        (config.Requests % workers config) n 0).sum = config.Requests) := by
  obtain ⟨_, _, h0, hlt, hsum, hq1⟩ := partition_facts config hr hc
  rw [quotaLoop_eq _ _ _ n 0 (by omega)]
  simp only [List.sum_append, List.sum_replicate, nsmul_eq_mul, sub_zero]
  generalize hQ : config.Requests / workers config = Q at *
  generalize hR : config.Requests % workers config = R at *
  generalize hW : workers config = W at *
  have ha : ((min R.toNat n : Nat) : Int) + ((n - R.toNat : Nat) : Int) = n := by omega
  have hb : ((min R.toNat n : Nat) : Int) ≤ R := by omega
  have hb2 : (n : Int) = W → ((min R.toNat n : Nat) : Int) = R := by omega
  generalize ((min R.toNat n : Nat) : Int) = a at *
  generalize ((n - R.toNat : Nat) : Int) = b at *
  constructor
  · have : 0 ≤ (W - n) * Q := mul_nonneg (by omega) (by omega)
    nlinarith
  · intro hnW
    have : a = R := hb2 hnW
    nlinarith

theorem pending_append (pool : List Worker) (w : Worker) :
    pending (pool ++ [w]) = pending pool + (if w.done then 0 else 1) := by
  simp [pending]

theorem start_none (maxChanCap : Int) (config : Config)
    (h : maxChanCap < config.Requests) : start maxChanCap config = none := by
  simp only [start, makeChan_none maxChanCap _ h, Option.isNone_none, if_true]

theorem inv_start (maxChanCap : Int) (config : Config) (hr : 1 ≤ config.Requests)
    (hcap : config.Requests ≤ maxChanCap) (hc : 1 ≤ config.Concurrency) :
    ∃ s0, start maxChanCap config = some s0 ∧ Inv s0 ∧
      stepsLeft s0 = 2 * config.Requests + 2 * workers config + 3 ∧
      s0.config = config ∧ s0.report = emptyReport ∧ s0.buf = [] := by
  obtain ⟨hq, hm, _, _, _, _⟩ := partition_facts config hr hc
  have hw := workers_pos config hr hc
  have hne : workers config ≠ 0 := by omega
  have hmk := makeChan_ok maxChanCap config.Requests (by omega) hcap
  refine ⟨initial config (config.Requests / workers config)
    (config.Requests % workers config), ?_, ?_, ?_, rfl, rfl, rfl⟩
  · simp only [start, hmk, Option.isNone_some, Bool.false_eq_true, if_false,
      requestsPerWorker, remainingRequests, goDiv, goMod, hne, hq, hm]
  · exact
      { requests_pos := hr
        concurrency_pos := hc
        workers_eq := rfl
        quota_eq := rfl
        rest_eq := rfl
        cap_eq := rfl
        no_panic := rfl
        pool_quota := rfl
        pool_len := by simp only [initial, List.length_nil]; omega
        at_spawn := by
          intro i hi
          simp only [initial, MainPc.spawning.injEq] at hi
          exact ⟨by simp [initial, ← hi], rfl⟩
        past_spawn := by
          intro h
          exact absurd rfl (h 0)
        worker_j := by intro w hw; simp [initial] at hw
        wg_eq := rfl
        closed_iff := by simp [initial]
        closed_wg := by simp [initial]
        sent_eq := rfl
        received := le_refl _
        at_return := by simp [initial] }
  · simp [stepsLeft, sent, pending, emptyReport, initial]
    omega

theorem pending_ge_one (pool : List Worker) (k : Nat) (w : Worker)
    (hk : pool[k]? = some w) (hd : w.done = false) : 1 ≤ pending pool := by
  have h1 := sum_map_set (fun w : Worker => if w.done then (0 : Int) else 1) pool k w
    { w with done := true } hk
  have h2 := pending_nonneg (pool.set k { w with done := true })
  simp only [pending] at h2 ⊢
  rw [h1] at h2
  simp only [hd] at h2
  simp only [Bool.false_eq_true, if_false, if_true] at h2
  omega

theorem sum_requests_le (s : State) (h : Inv s) :
    (s.pool.map Worker.requests).sum ≤ s.config.Requests ∧
    ((s.pool.length : Int) = s.workers →
      (s.pool.map Worker.requests).sum = s.config.Requests) := by
  have hq := h.pool_quota
  have hl := h.pool_len
  rw [h.quota_eq, h.rest_eq, h.workers_eq] at hq
  rw [h.workers_eq] at hl ⊢
  rw [hq]
  exact quotaLoop_sum_le s.config h.requests_pos h.concurrency_pos _ hl

theorem sent_le (s : State) (h : Inv s) : sent s ≤ (s.pool.map Worker.requests).sum :=
  List.sum_le_sum (fun w hw => (h.worker_j w hw).2.1)

theorem sent_lt (s : State) (h : Inv s) (k : Nat) (w : Worker)
    (hk : s.pool[k]? = some w) (hj : w.j < w.requests) :
    sent s < s.config.Requests := by
  have h1 : sent s < (s.pool.map Worker.requests).sum :=
    List.sum_lt_sum _ _ (fun w hw => (h.worker_j w hw).2.1) ⟨w, List.getElem?_mem hk, hj⟩
  have h2 := (sum_requests_le s h).1
  omega

/-- A worker standing at its send statement is not done, the channel is open,
and the buffer has a free slot. -/
theorem send_ready (s : State) (h : Inv s) (k : Nat) (w : Worker)
    (hk : s.pool[k]? = some w) (hj : w.j < w.requests) :
    w.done = false ∧ s.closed = false ∧ (s.buf.length : Int) < s.cap := by
  have hmem := List.getElem?_mem hk
  have hd : w.done = false := by
    cases hd : w.done with
    | false => rfl
    | true =>
      have := (h.worker_j w hmem).2.2 hd
      omega
  refine ⟨hd, ?_, ?_⟩
  · cases hc : s.closed with
    | false => rfl
    | true =>
      have h0 := h.closed_wg hc
      rw [h.wg_eq] at h0
      have := pending_zero s.pool h0 w hmem
      rw [hd] at this
      exact absurd this (by decide)
  · have h1 := sent_lt s h k w hk hj
    have h2 := h.sent_eq
    have h3 := h.received
    rw [h.cap_eq]
    omega

theorem inv_spawn (s : State) (h : Inv s) (i : Int) (hpc : s.pc = .spawning i)
    (hi : i < s.workers) :
    Inv { s with
      pool := s.pool ++
        [{ requests := workerRequests s.requestsPerWorker s.remainingRequests i
           j := 0
           done := false }]
      wg := s.wg + 1
      pc := .spawning (i + 1) } := by
  obtain ⟨hlen, hcl⟩ := h.at_spawn i hpc
  have hopen : s.closed = false := by
    cases hc : s.closed with
    | false => rfl
    | true =>
      have := h.closed_iff.1 hc
      rw [hcl] at this
      exact CloserPc.noConfusion this
  have hq1 := (workerRequests_le_requests s.config h.requests_pos h.concurrency_pos i
    (by omega)).1
  rw [← h.workers_eq, ← h.quota_eq, ← h.rest_eq] at hq1
  exact
    { requests_pos := h.requests_pos
      concurrency_pos := h.concurrency_pos
      workers_eq := h.workers_eq
      quota_eq := h.quota_eq
      rest_eq := h.rest_eq
      cap_eq := h.cap_eq
      no_panic := h.no_panic
      pool_quota := by
        simp only [List.map_append, List.map_cons, List.map_nil, List.length_append,
          List.length_singleton]
        rw [quotaLoop_succ _ _ _ _ 0 (by omega), ← h.pool_quota, zero_add, ← hlen]
      pool_len := by
        simp only [List.length_append, List.length_singleton]
        push_cast
        omega
      at_spawn := by
        intro i' hi'
        simp only [MainPc.spawning.injEq] at hi'
        simp only [List.length_append, List.length_singleton]
        refine ⟨?_, hcl⟩
        push_cast
        omega
      past_spawn := by
        intro hne
        exact absurd rfl (hne (i + 1))
      worker_j := by
        intro w hw
        rcases List.mem_append.1 hw with hw | hw
        · exact h.worker_j w hw
        · simp only [List.mem_singleton] at hw
          subst hw
          exact ⟨le_refl _, by simp only; omega, by simp⟩
      wg_eq := by
        simp only [pending_append, h.wg_eq]
        simp
      closed_iff := h.closed_iff
      closed_wg := by
        intro hc
        simp only [hopen] at hc
        exact absurd hc (by decide)
      sent_eq := by
        have := h.sent_eq
        simp only [sent, List.map_append, List.sum_append, List.map_cons, List.map_nil,
          List.sum_cons, List.sum_nil] at this ⊢
        omega
      received := h.received
      at_return := by
        intro hr
        exact MainPc.noConfusion hr }

theorem inv_startCloser (s : State) (h : Inv s) (i : Int) (hpc : s.pc = .spawning i)
    (hi : ¬ i < s.workers) :
    Inv { s with closer := .waiting, pc := .draining } := by
  obtain ⟨hlen, hcl⟩ := h.at_spawn i hpc
  have hl := h.pool_len
  have hopen : s.closed = false := by
    cases hc : s.closed with
    | false => rfl
    | true =>
      have := h.closed_iff.1 hc
      rw [hcl] at this
      exact CloserPc.noConfusion this
  exact
    { requests_pos := h.requests_pos
      concurrency_pos := h.concurrency_pos
      workers_eq := h.workers_eq
      quota_eq := h.quota_eq
      rest_eq := h.rest_eq
      cap_eq := h.cap_eq
      no_panic := h.no_panic
      pool_quota := h.pool_quota
      pool_len := h.pool_len
      at_spawn := by
        intro i' hi'
        exact MainPc.noConfusion hi'
      past_spawn := by
        intro _
        refine ⟨?_, by simp⟩
        show (s.pool.length : Int) = s.workers
        omega
      worker_j := h.worker_j
      wg_eq := h.wg_eq
      closed_iff := by
        show s.closed = true ↔ CloserPc.waiting = CloserPc.finished
        simp [hopen]
      closed_wg := h.closed_wg
      sent_eq := h.sent_eq
      received := h.received
      at_return := by
        intro hr
        exact MainPc.noConfusion hr }

theorem inv_send (s : State) (h : Inv s) (k : Nat) (w : Worker) (result : Result)
    (hk : s.pool[k]? = some w) (hj : w.j < w.requests) :
    Inv { s with
      buf := s.buf ++ [result]
      pool := s.pool.set k { w with j := w.j + 1 } } := by
  obtain ⟨hd, hopen, _⟩ := send_ready s h k w hk hj
  have hmem := List.getElem?_mem hk
  have hreq : (s.pool.set k { w with j := w.j + 1 }).map Worker.requests =
      s.pool.map Worker.requests := map_set_same _ _ _ w _ hk rfl
  exact
    { requests_pos := h.requests_pos
      concurrency_pos := h.concurrency_pos
      workers_eq := h.workers_eq
      quota_eq := h.quota_eq
      rest_eq := h.rest_eq
      cap_eq := h.cap_eq
      no_panic := h.no_panic
      pool_quota := by
        simp only [hreq, List.length_set]
        exact h.pool_quota
      pool_len := by
        simp only [List.length_set]
        exact h.pool_len
      at_spawn := by
        intro i hi
        simp only [List.length_set]
        exact h.at_spawn i hi
      past_spawn := by
        intro hne
        simp only [List.length_set]
        exact h.past_spawn hne
      worker_j := by
        intro w' hw'
        rcases List.mem_or_eq_of_mem_set hw' with hw' | hw'
        · exact h.worker_j w' hw'
        · subst hw'
          have := h.worker_j w hmem
          refine ⟨by simp only; omega, by simp only; omega, ?_⟩
          intro hdone
          simp only [hd] at hdone
          exact absurd hdone (by decide)
      wg_eq := by
        have : pending (s.pool.set k { w with j := w.j + 1 }) = pending s.pool := by
          simp only [pending]
          rw [map_set_same (fun w : Worker => if w.done then (0 : Int) else 1) s.pool k w
            { w with j := w.j + 1 } hk rfl]
        simp only [this]
        exact h.wg_eq
      closed_iff := h.closed_iff
      closed_wg := h.closed_wg
      sent_eq := by
        have h1 := h.sent_eq
        have h2 := sum_map_set Worker.j s.pool k w { w with j := w.j + 1 } hk
        simp only [sent, List.length_append, List.length_singleton] at h1 ⊢
        rw [h2]
        push_cast
        omega
      received := h.received
      at_return := by
        intro hr
        have := (h.at_return hr).1
        rw [hopen] at this
        exact absurd this (by decide) }

theorem inv_workerDone (s : State) (h : Inv s) (k : Nat) (w : Worker)
    (hk : s.pool[k]? = some w) (hd : w.done = false) (hj : ¬ w.j < w.requests) :
    Inv { s with wg := s.wg - 1, pool := s.pool.set k { w with done := true } } := by
  have hmem := List.getElem?_mem hk
  have hge := pending_ge_one s.pool k w hk hd
  have hreq : (s.pool.set k { w with done := true }).map Worker.requests =
      s.pool.map Worker.requests := map_set_same _ _ _ w _ hk rfl
  exact
    { requests_pos := h.requests_pos
      concurrency_pos := h.concurrency_pos
      workers_eq := h.workers_eq
      quota_eq := h.quota_eq
      rest_eq := h.rest_eq
      cap_eq := h.cap_eq
      no_panic := h.no_panic
      pool_quota := by
        simp only [hreq, List.length_set]
        exact h.pool_quota
      pool_len := by
        simp only [List.length_set]
        exact h.pool_len
      at_spawn := by
        intro i hi
        simp only [List.length_set]
        exact h.at_spawn i hi
      past_spawn := by
        intro hne
        simp only [List.length_set]
        exact h.past_spawn hne
      worker_j := by
        intro w' hw'
        rcases List.mem_or_eq_of_mem_set hw' with hw' | hw'
        · exact h.worker_j w' hw'
        · subst hw'
          have := h.worker_j w hmem
          refine ⟨this.1, this.2.1, ?_⟩
          intro _
          show w.j = w.requests
          omega
      wg_eq := by
        have h2 := sum_map_set (fun w : Worker => if w.done then (0 : Int) else 1) s.pool k w
          { w with done := true } hk
        simp only [hd] at h2
        simp only [Bool.false_eq_true, if_false, if_true] at h2
        have h3 := h.wg_eq
        simp only [pending] at h3 ⊢
        rw [h2]
        omega
      closed_iff := h.closed_iff
      closed_wg := by
        intro hc
        have h0 := h.closed_wg hc
        have h3 := h.wg_eq
        omega
      sent_eq := by
        have h1 := h.sent_eq
        simp only [sent] at h1 ⊢
        rw [map_set_same Worker.j s.pool k w { w with done := true } hk rfl]
        exact h1
      received := h.received
      at_return := h.at_return }

theorem inv_closeResults (s : State) (h : Inv s) (hc : s.closer = .waiting)
    (hwg : s.wg = 0) :
    Inv { s with closed := true, closer := .finished } :=
  { requests_pos := h.requests_pos
    concurrency_pos := h.concurrency_pos
    workers_eq := h.workers_eq
    quota_eq := h.quota_eq
    rest_eq := h.rest_eq
    cap_eq := h.cap_eq
    no_panic := h.no_panic
    pool_quota := h.pool_quota
    pool_len := h.pool_len
    at_spawn := by
      intro i hi
      have := (h.at_spawn i hi).2
      rw [hc] at this
      exact CloserPc.noConfusion this
    past_spawn := by
      intro hne
      exact ⟨(h.past_spawn hne).1, by simp⟩
    worker_j := h.worker_j
    wg_eq := h.wg_eq
    closed_iff := by simp
    closed_wg := fun _ => hwg
    sent_eq := h.sent_eq
    received := h.received
    at_return := by
      intro hr
      exact ⟨rfl, (h.at_return hr).2⟩ }

theorem inv_receive (s : State) (h : Inv s) (result : Result) (rest : List Result)
    (hpc : s.pc = .draining) (hb : s.buf = result :: rest) :
    Inv { s with buf := rest, report := processResult s.report result } :=
  { requests_pos := h.requests_pos
    concurrency_pos := h.concurrency_pos
    workers_eq := h.workers_eq
    quota_eq := h.quota_eq
    rest_eq := h.rest_eq
    cap_eq := h.cap_eq
    no_panic := h.no_panic
    pool_quota := h.pool_quota
    pool_len := h.pool_len
    at_spawn := h.at_spawn
    past_spawn := h.past_spawn
    worker_j := h.worker_j
    wg_eq := h.wg_eq
    closed_iff := h.closed_iff
    closed_wg := h.closed_wg
    sent_eq := by
      have h1 := h.sent_eq
      rw [hb] at h1
      have h2 := (processResult_fields s.report result).2.1
      simp only [sent, List.length_cons] at h1 ⊢
      rw [h2]
      push_cast at h1
      omega
    received := by
      have h2 := (processResult_fields s.report result).2.1
      have h3 := h.received
      show 0 ≤ (processResult s.report result).TotalRequests
      omega
    at_return := by
      intro hr
      have : s.pc = .returned := hr
      rw [hpc] at this
      exact MainPc.noConfusion this }

theorem inv_finish (s : State) (h : Inv s) (elapsed : Int)
    (hpc : s.pc = .draining) (hb : s.buf = []) (hc : s.closed = true) :
    Inv { s with report := { s.report with TotalTime := elapsed }, pc := .returned } :=
  have hne : ∀ i, s.pc ≠ .spawning i := by
    intro i hi
    rw [hpc] at hi
    exact MainPc.noConfusion hi
  { requests_pos := h.requests_pos
    concurrency_pos := h.concurrency_pos
    workers_eq := h.workers_eq
    quota_eq := h.quota_eq
    rest_eq := h.rest_eq
    cap_eq := h.cap_eq
    no_panic := h.no_panic
    pool_quota := h.pool_quota
    pool_len := h.pool_len
    at_spawn := by
      intro i hi
      exact MainPc.noConfusion hi
    past_spawn := fun _ => h.past_spawn hne
    worker_j := h.worker_j
    wg_eq := h.wg_eq
    closed_iff := h.closed_iff
    closed_wg := h.closed_wg
    sent_eq := h.sent_eq
    received := h.received
    at_return := fun _ => ⟨hc, hb⟩ }

/-- Every step of a run keeps the invariant and uses up one of the steps left. -/
theorem step_inv (s s' : State) (a : Action) (h : Inv s) (hs : step s a = some s') :
    Inv s' ∧ stepsLeft s' + 1 = stepsLeft s ∧ s'.config = s.config := by
  have hp := h.no_panic
  unfold step at hs
  rw [if_neg (show ¬ s.panicked = true by rw [hp]; decide)] at hs
  cases a with
  | spawn =>
    simp only at hs
    split at hs
    · next i hpc =>
      split at hs
      · next hi =>
        simp only [Option.some.injEq] at hs
        subst hs
        refine ⟨inv_spawn s h i hpc hi, ?_, rfl⟩
        simp only [stepsLeft, hpc, sent, pending_append, List.map_append, List.sum_append,
          List.length_append, List.length_singleton, List.map_cons, List.map_nil,
          List.sum_cons, List.sum_nil]
        simp only [Bool.false_eq_true, if_false]
        push_cast
        omega
      · exact Option.noConfusion hs
    · exact Option.noConfusion hs
  | startCloser =>
    simp only at hs
    split at hs
    · next i hpc =>
      split at hs
      · exact Option.noConfusion hs
      · next hi =>
        simp only [Option.some.injEq] at hs
        subst hs
        refine ⟨inv_startCloser s h i hpc hi, ?_, rfl⟩
        have hcl := (h.at_spawn i hpc).2
        simp only [stepsLeft, hpc, hcl, sent]
        omega
    · exact Option.noConfusion hs
  | send k result =>
    simp only at hs
    split at hs
    · next w hk =>
      split at hs
      · exact Option.noConfusion hs
      · split at hs
        · next hj =>
          obtain ⟨hd, hopen, hfree⟩ := send_ready s h k w hk hj
          rw [if_neg (show ¬ s.closed = true by rw [hopen]; decide), if_pos hfree] at hs
          simp only [Option.some.injEq] at hs
          subst hs
          refine ⟨inv_send s h k w result hk hj, ?_, rfl⟩
          have h2 := sum_map_set Worker.j s.pool k w { w with j := w.j + 1 } hk
          have h3 : pending (s.pool.set k { w with j := w.j + 1 }) = pending s.pool := by
            simp only [pending]
            rw [map_set_same (fun w : Worker => if w.done then (0 : Int) else 1) s.pool k w
              { w with j := w.j + 1 } hk rfl]
          simp only [stepsLeft, sent, List.length_set, h2, h3]
          omega
        · exact Option.noConfusion hs
    · exact Option.noConfusion hs
  | workerDone k =>
    simp only at hs
    split at hs
    · next w hk =>
      split at hs
      · exact Option.noConfusion hs
      · next hd =>
        have hd' : w.done = false := by simpa using hd
        split at hs
        · exact Option.noConfusion hs
        · next hj =>
          have hge := pending_ge_one s.pool k w hk hd'
          have hwg := h.wg_eq
          have hnot : ¬ s.wg - 1 < 0 := by omega
          simp only [hnot, if_false, Option.some.injEq] at hs
          subst hs
          refine ⟨inv_workerDone s h k w hk hd' hj, ?_, rfl⟩
          have h2 := sum_map_set (fun w : Worker => if w.done then (0 : Int) else 1) s.pool k w
            { w with done := true } hk
          simp only [hd'] at h2
          simp only [Bool.false_eq_true, if_false, if_true] at h2
          have h3 : (s.pool.set k { w with done := true }).map Worker.j =
              s.pool.map Worker.j :=
            map_set_same Worker.j s.pool k w { w with done := true } hk rfl
          simp only [stepsLeft, sent, pending, List.length_set, h2, h3]
          omega
    · exact Option.noConfusion hs
  | closeResults =>
    simp only at hs
    split at hs
    · next hc =>
      split at hs
      · next hwg =>
        have hopen : s.closed = false := by
          cases hcl : s.closed with
          | false => rfl
          | true =>
            have := h.closed_iff.1 hcl
            rw [hc] at this
            exact CloserPc.noConfusion this
        rw [if_neg (show ¬ s.closed = true by rw [hopen]; decide)] at hs
        simp only [Option.some.injEq] at hs
        subst hs
        refine ⟨inv_closeResults s h hc hwg, ?_, rfl⟩
        simp only [stepsLeft, hc, sent]
        omega
      · exact Option.noConfusion hs
    · exact Option.noConfusion hs
  | receive =>
    simp only at hs
    split at hs
    · next result rest hpc hb =>
      simp only [Option.some.injEq] at hs
      subst hs
      refine ⟨inv_receive s h result rest hpc hb, ?_, rfl⟩
      have h2 := (processResult_fields s.report result).2.1
      simp only [stepsLeft, hpc, sent, h2]
      omega
    · exact Option.noConfusion hs
  | finish elapsed =>
    simp only at hs
    split at hs
    · next hpc hb =>
      split at hs
      · next hc =>
        simp only [Option.some.injEq] at hs
        subst hs
        refine ⟨inv_finish s h elapsed hpc hb hc, ?_, rfl⟩
        simp only [stepsLeft, hpc, sent]
        omega
      · exact Option.noConfusion hs
    · exact Option.noConfusion hs

theorem exec_inv (s s' : State) (acts : List Action) (h : Inv s)
    (he : exec s acts = some s') :
    Inv s' ∧ stepsLeft s' + acts.length = stepsLeft s ∧ s'.config = s.config := by
  induction acts generalizing s with
  | nil =>
    simp only [exec, Option.some.injEq] at he
    subst he
    exact ⟨h, by simp, rfl⟩
  | cons a rest ih =>
    simp only [exec] at he
    split at he
    · next s1 hs1 =>
      obtain ⟨h1, m1, c1⟩ := step_inv s s1 a h hs1
      obtain ⟨h2, m2, c2⟩ := ih s1 h1 he
      refine ⟨h2, ?_, c2.trans c1⟩
      simp only [List.length_cons]
      push_cast
      omega
    · exact Option.noConfusion he

theorem exec_append (s : State) (xs ys : List Action) :
    exec s (xs ++ ys) = (exec s xs).bind (fun s1 => exec s1 ys) := by
  induction xs generalizing s with
  | nil => rfl
  | cons a rest ih =>
    simp only [List.cons_append, exec]
    cases step s a with
    | none => rfl
    | some s1 => exact ih s1

theorem stepsLeft_nonneg (s : State) (h : Inv s) : 0 ≤ stepsLeft s := by
  have h1 := sent_le s h
  have h2 := (sum_requests_le s h).1
  have h3 := h.pool_len
  have h4 := pending_nonneg s.pool
  have h5 := h.sent_eq
  unfold stepsLeft
  split <;> split <;> omega

/-- Once runLoadTest has returned, the report counts exactly `config.Requests`
results. -/
theorem returned_total (s : State) (h : Inv s) (hpc : s.pc = .returned) :
    s.report.TotalRequests = s.config.Requests := by
  obtain ⟨hc, hb⟩ := h.at_return hpc
  have hwg := h.closed_wg hc
  rw [h.wg_eq] at hwg
  have hdone := pending_zero s.pool hwg
  have hne : ∀ i, s.pc ≠ .spawning i := by
    intro i hi
    rw [hpc] at hi
    exact MainPc.noConfusion hi
  have hlen := (h.past_spawn hne).1
  have hsum := (sum_requests_le s h).2 hlen
  have hj : s.pool.map Worker.j = s.pool.map Worker.requests :=
    List.map_congr_left (fun w hw => (h.worker_j w hw).2.2 (hdone w hw))
  have hs := h.sent_eq
  simp only [sent, hj, hsum, hb, List.length_nil] at hs
  push_cast at hs
  omega

/-- No run is stuck before runLoadTest returns: some goroutine can always take
a step, and when that step is a send it can be taken whatever the outcome of
the request. -/
theorem progress (s : State) (h : Inv s) (hpc : s.pc ≠ .returned) :
    (∃ a, (∀ k r, a ≠ .send k r) ∧ (step s a).isSome = true) ∨
    (∃ k, ∀ r, (step s (.send k r)).isSome = true) := by
  have hp := h.no_panic
  cases hc : s.pc with
  | spawning i =>
    left
    by_cases hi : i < s.workers
    · exact ⟨.spawn, fun _ _ => Action.noConfusion, by simp [step, hp, hc, hi]⟩
    · exact ⟨.startCloser, fun _ _ => Action.noConfusion, by simp [step, hp, hc, hi]⟩
  | returned => exact absurd hc hpc
  | draining =>
    cases hb : s.buf with
    | cons r rest =>
      left
      exact ⟨.receive, fun _ _ => Action.noConfusion, by simp [step, hp, hc, hb]⟩
    | nil =>
      by_cases hcl : s.closed = true
      · left
        exact ⟨.finish 0, fun _ _ => Action.noConfusion, by simp [step, hp, hc, hb, hcl]⟩
      · have hne : ∀ i, s.pc ≠ .spawning i := by
          intro i hi
          rw [hc] at hi
          exact MainPc.noConfusion hi
        have hns := (h.past_spawn hne).2
        have hnf : s.closer ≠ .finished := fun hf => hcl (h.closed_iff.2 hf)
        have hw : s.closer = .waiting := by
          cases hcc : s.closer with
          | notStarted => exact absurd hcc hns
          | waiting => rfl
          | finished => exact absurd hcc hnf
        by_cases hwg : s.wg = 0
        · left
          exact ⟨.closeResults, fun _ _ => Action.noConfusion,
            by simp [step, hp, hw, hwg, hcl]⟩
        · have hpe : pending s.pool ≠ 0 := by
            rw [← h.wg_eq]; exact hwg
          obtain ⟨k, w, hk, hd⟩ := pending_pos s.pool hpe
          by_cases hj : w.j < w.requests
          · right
            refine ⟨k, fun r => ?_⟩
            obtain ⟨_, hopen, hfree⟩ := send_ready s h k w hk hj
            simp [step, hp, hk, hd, hj, hopen, hfree]
          · left
            have hge := pending_ge_one s.pool k w hk hd
            have hwe := h.wg_eq
            have hnot : ¬ s.wg - 1 < 0 := by omega
            exact ⟨.workerDone k, fun _ _ => Action.noConfusion,
              by simp [step, hp, hk, hd, hj, hnot]⟩

/-- Every run can be continued until runLoadTest returns. -/
theorem completion (s : State) (h : Inv s) :
    ∃ acts s', exec s acts = some s' ∧ s'.pc = .returned := by
  have key : ∀ (n : Nat) (s : State), Inv s → stepsLeft s ≤ n →
      ∃ acts s', exec s acts = some s' ∧ s'.pc = .returned := by
    intro n
    induction n with
    | zero =>
      intro s h hn
      by_cases hpc : s.pc = .returned
      · exact ⟨[], s, rfl, hpc⟩
      · exfalso
        have hstep : ∃ a s1, step s a = some s1 := by
          rcases progress s h hpc with ⟨a, _, ha⟩ | ⟨k, hk⟩
          · obtain ⟨s1, hs1⟩ := Option.isSome_iff_exists.1 ha
            exact ⟨a, s1, hs1⟩
          · obtain ⟨s1, hs1⟩ := Option.isSome_iff_exists.1 (hk ⟨0, 0, none⟩)
            exact ⟨_, s1, hs1⟩
        obtain ⟨a, s1, hs1⟩ := hstep
        obtain ⟨h1, m1, _⟩ := step_inv s s1 a h hs1
        have := stepsLeft_nonneg s1 h1
        push_cast at hn
        omega
    | succ m ih =>
      intro s h hn
      by_cases hpc : s.pc = .returned
      · exact ⟨[], s, rfl, hpc⟩
      · have hstep : ∃ a s1, step s a = some s1 := by
          rcases progress s h hpc with ⟨a, _, ha⟩ | ⟨k, hk⟩
          · obtain ⟨s1, hs1⟩ := Option.isSome_iff_exists.1 ha
            exact ⟨a, s1, hs1⟩
          · obtain ⟨s1, hs1⟩ := Option.isSome_iff_exists.1 (hk ⟨0, 0, none⟩)
            exact ⟨_, s1, hs1⟩
        obtain ⟨a, s1, hs1⟩ := hstep
        obtain ⟨h1, m1, _⟩ := step_inv s s1 a h hs1
        obtain ⟨acts, s', he, hr⟩ := ih s1 h1 (by push_cast at hn; omega)
        exact ⟨a :: acts, s', by simp only [exec, hs1]; exact he, hr⟩
  exact key (stepsLeft s).toNat s h (by have := stepsLeft_nonneg s h; omega)

theorem aggregate_append (report : Report) (xs ys : List Result) :
    aggregate report (xs ++ ys) = aggregate (aggregate report xs) ys := by
  simp [aggregate, List.foldl_append]

theorem processResult_time (report : Report) (x : Result) (t : Int) :
    processResult { report with TotalTime := t } x =
      { processResult report x with TotalTime := t } := by
  unfold processResult
  by_cases he : x.Error.isSome <;> simp [he]

theorem sentResults_append (xs ys : List Action) :
    sentResults (xs ++ ys) = sentResults xs ++ sentResults ys := by
  induction xs with
  | nil => rfl
  | cons a rest ih =>
    cases a <;> simp [sentResults, ih]

/-- The report and the buffered results together always amount to the
aggregation of everything sent so far, in the order of the sends. -/
theorem step_history (s s' : State) (a : Action) (hist : List Result)
    (hs : step s a = some s') (hp : s'.panicked = false)
    (H : aggregate s.report s.buf =
      { aggregate emptyReport hist with TotalTime := s.report.TotalTime }) :
    aggregate s'.report s'.buf =
      { aggregate emptyReport (hist ++ sentResults [a]) with
        TotalTime := s'.report.TotalTime } := by
  unfold step at hs
  split at hs
  · exact Option.noConfusion hs
  · cases a with
    | spawn =>
      simp only at hs
      split at hs
      · split at hs
        · simp only [Option.some.injEq] at hs
          subst hs
          simpa [sentResults] using H
        · exact Option.noConfusion hs
      · exact Option.noConfusion hs
    | startCloser =>
      simp only at hs
      split at hs
      · split at hs
        · exact Option.noConfusion hs
        · simp only [Option.some.injEq] at hs
          subst hs
          simpa [sentResults] using H
      · exact Option.noConfusion hs
    | send k result =>
      simp only at hs
      split at hs
      · split at hs
        · exact Option.noConfusion hs
        · split at hs
          · split at hs
            · simp only [Option.some.injEq] at hs
              subst hs
              exact absurd hp (by simp)
            · split at hs
              · simp only [Option.some.injEq] at hs
                subst hs
                show aggregate s.report (s.buf ++ [result]) = _
                rw [aggregate_append, H, aggregate_append]
                show processResult _ result = _
                rw [processResult_time]
                rfl
              · exact Option.noConfusion hs
          · exact Option.noConfusion hs
      · exact Option.noConfusion hs
    | workerDone k =>
      simp only at hs
      split at hs
      · split at hs
        · exact Option.noConfusion hs
        · split at hs
          · exact Option.noConfusion hs
          · split at hs
            · simp only [Option.some.injEq] at hs
              subst hs
              exact absurd hp (by simp)
            · simp only [Option.some.injEq] at hs
              subst hs
              simpa [sentResults] using H
      · exact Option.noConfusion hs
    | closeResults =>
      simp only at hs
      split at hs
      · split at hs
        · split at hs
          · simp only [Option.some.injEq] at hs
            subst hs
            exact absurd hp (by simp)
          · simp only [Option.some.injEq] at hs
            subst hs
            simpa [sentResults] using H
        · exact Option.noConfusion hs
      · exact Option.noConfusion hs
    | receive =>
      simp only at hs
      split at hs
      · next result rest hpc hb =>
        simp only [Option.some.injEq] at hs
        subst hs
        rw [hb, aggregate_cons] at H
        have ht := (processResult_fields s.report result).1
        simp only [sentResults, List.append_nil]
        rw [H, ht]
      · exact Option.noConfusion hs
    | finish elapsed =>
      simp only at hs
      split at hs
      · next hpc hb =>
        split at hs
        · simp only [Option.some.injEq] at hs
          subst hs
          rw [hb] at H
          have H' : s.report =
              { aggregate emptyReport hist with TotalTime := s.report.TotalTime } := H
          simp only [sentResults, List.append_nil]
          show aggregate { s.report with TotalTime := elapsed } s.buf = _
          rw [hb, H']
          rfl
        · exact Option.noConfusion hs
      · exact Option.noConfusion hs

theorem exec_history (s s' : State) (acts : List Action) (hist : List Result)
    (h : Inv s) (he : exec s acts = some s')
    (H : aggregate s.report s.buf =
      { aggregate emptyReport hist with TotalTime := s.report.TotalTime }) :
    aggregate s'.report s'.buf =
      { aggregate emptyReport (hist ++ sentResults acts) with
        TotalTime := s'.report.TotalTime } := by
  induction acts generalizing s hist with
  | nil =>
    simp only [exec, Option.some.injEq] at he
    subst he
    simpa [sentResults] using H
  | cons a rest ih =>
    simp only [exec] at he
    split at he
    · next s1 hs1 =>
      obtain ⟨h1, _, _⟩ := step_inv s s1 a h hs1
      have H1 := step_history s s1 a hist hs1 h1.no_panic H
      have := ih s1 (hist ++ sentResults [a]) h1 he H1
      rw [List.append_assoc, ← sentResults_append] at this
      exact this
    · exact Option.noConfusion he

/-- Every state reached by a run of a valid configuration satisfies the
invariant, belongs to that configuration, has used as many steps as the
schedule is long, and holds (report and buffer together) the aggregation of the
results sent so far. -/
theorem reach_inv (maxChanCap : Int) (config : Config) (hr : 1 ≤ config.Requests)
    (hc : 1 ≤ config.Concurrency) (schedule : List Action) (s : State)
    (h : reach maxChanCap config schedule = some s) :
    Inv s ∧ s.config = config ∧ config.Requests ≤ maxChanCap ∧
      stepsLeft s + schedule.length = 2 * config.Requests + 2 * workers config + 3 ∧
      aggregate s.report s.buf =
        { aggregate emptyReport (sentResults schedule) with
          TotalTime := s.report.TotalTime } := by
  have hcap : config.Requests ≤ maxChanCap := by
    by_contra hlt
    simp only [reach, start_none maxChanCap config (by omega)] at h
    exact Option.noConfusion h
  obtain ⟨s0, h0, hinv, hsteps, hcfg, hrep, hbuf⟩ := inv_start maxChanCap config hr hcap hc
  simp only [reach, h0] at h
  obtain ⟨h1, h2, h3⟩ := exec_inv s0 s schedule hinv h
  have H0 : aggregate s0.report s0.buf =
      { aggregate emptyReport [] with TotalTime := s0.report.TotalTime } := by
    rw [hrep, hbuf]; rfl
  have H := exec_history s0 s schedule [] hinv h H0
  rw [List.nil_append] at H
  exact ⟨h1, h3.trans hcfg, hcap, by omega, H⟩

theorem reach_append (maxChanCap : Int) (config : Config) (xs ys : List Action)
    (s : State) (h : reach maxChanCap config xs = some s) :
    reach maxChanCap config (xs ++ ys) = exec s ys := by
  unfold reach at h ⊢
  cases hs : start maxChanCap config with
  | none => rw [hs] at h; exact Option.noConfusion h
  | some s0 =>
    rw [hs] at h
    have h' : exec s0 xs = some s := h
    simp only [exec_append, h', Option.some_bind]

/-- The quotas of the spawned workers are the quota list of the configuration. -/
theorem pool_quotas (maxChanCap : Int) (s : State) (h : Inv s)
    (hcap : s.config.Requests ≤ maxChanCap)
    (hlen : (s.pool.length : Int) = s.workers) :
    quotas maxChanCap s.config = some (s.pool.map Worker.requests) := by
  obtain ⟨hq, hm, _⟩ := partition_facts s.config h.requests_pos h.concurrency_pos
  have hw := workers_pos s.config h.requests_pos h.concurrency_pos
  have hne : workers s.config ≠ 0 := by omega
  have hmk := makeChan_ok maxChanCap s.config.Requests
    (by have := h.requests_pos; omega) hcap
  have hl : s.pool.length = (workers s.config).toNat := by
    rw [← h.workers_eq]; omega
  simp only [quotas, hmk, Option.isNone_some, Bool.false_eq_true, if_false,
    requestsPerWorker, remainingRequests, goDiv, goMod, hne,
    hq, hm]
  rw [h.pool_quota, h.quota_eq, h.rest_eq, h.workers_eq, hl]

/-! ## Theorems on runs -/

/-- C2 (amended): for every configuration with concurrency >= 1 and
requests >= 1 at most the largest channel capacity the runtime accepts (any
URL), and every outcome of the individual requests, runLoadTest starts without
panic, some run returns a report, and every report returned has TotalRequests
equal to config.Requests: exactly config.Requests results were sent, the report
is the aggregation of exactly those results (each counted once), every worker
has emitted exactly its quota, and nothing is left in the channel.  No run
panics, no run is longer than 2*requests + 2*W + 3 steps, before the return
some goroutine can always take a step (a send whatever the outcome of its
request), and every run prefix extends to a run that returns a report. -/
theorem runLoadTest_total_requests (maxChanCap : Int) (config : Config)
    (hr : 1 ≤ config.Requests) (hm : config.Requests ≤ maxChanCap)
    (hc : 1 ≤ config.Concurrency) :
    (∃ s0, start maxChanCap config = some s0 ∧ reach maxChanCap config [] = some s0) ∧
    (∃ schedule report, runLoadTest maxChanCap config schedule = some report ∧
      report.TotalRequests = config.Requests) ∧
    (∀ schedule report, runLoadTest maxChanCap config schedule = some report →
      report.TotalRequests = config.Requests ∧
      ((sentResults schedule).length : Int) = config.Requests ∧
      report = { aggregate emptyReport (sentResults schedule) with
        TotalTime := report.TotalTime }) ∧
    (∀ schedule s, reach maxChanCap config schedule = some s →
      s.panicked = false ∧
      (schedule.length : Int) ≤ 2 * config.Requests + 2 * workers config + 3 ∧
      (s.pc = .returned →
        s.report.TotalRequests = config.Requests ∧
        quotas maxChanCap config = some (s.pool.map Worker.j) ∧
        sent s = config.Requests ∧ s.buf = []) ∧
      (s.pc ≠ .returned →
        (∃ a, (∀ k r, a ≠ .send k r) ∧ (step s a).isSome = true) ∨
        (∃ k, ∀ r, (step s (.send k r)).isSome = true)) ∧
      ∃ rest report, runLoadTest maxChanCap config (schedule ++ rest) = some report) := by
  have total : ∀ schedule report, runLoadTest maxChanCap config schedule = some report →
      report.TotalRequests = config.Requests ∧
      ((sentResults schedule).length : Int) = config.Requests ∧
      report = { aggregate emptyReport (sentResults schedule) with
        TotalTime := report.TotalTime } := by
    intro schedule report hrun
    unfold runLoadTest at hrun
    split at hrun
    · next s hs =>
      obtain ⟨hinv, hcfg, _, _, hist⟩ := reach_inv maxChanCap config hr hc schedule s hs
      split at hrun
      · next hret =>
        simp only [Option.some.injEq] at hrun
        have htot := returned_total s hinv hret.1
        rw [(hinv.at_return hret.1).2] at hist
        have hrep : s.report =
            { aggregate emptyReport (sentResults schedule) with
              TotalTime := s.report.TotalTime } := hist
        have hlen := (aggregate_spec emptyReport (sentResults schedule)).2.1
        have hcount : s.report.TotalRequests =
            (aggregate emptyReport (sentResults schedule)).TotalRequests := by
          rw [hrep]
        have hz : emptyReport.TotalRequests = 0 := rfl
        rw [← hrun, ← hcfg]
        exact ⟨htot, by omega, hrep⟩
      · exact Option.noConfusion hrun
    · exact Option.noConfusion hrun
  have extend : ∀ schedule s, reach maxChanCap config schedule = some s →
      ∃ rest report, runLoadTest maxChanCap config (schedule ++ rest) = some report := by
    intro schedule s hs
    obtain ⟨hinv, _⟩ := reach_inv maxChanCap config hr hc schedule s hs
    obtain ⟨rest, s', he, hret⟩ := completion s hinv
    have hs' : reach maxChanCap config (schedule ++ rest) = some s' := by
      rw [reach_append maxChanCap config schedule rest s hs]; exact he
    obtain ⟨hinv', _⟩ := reach_inv maxChanCap config hr hc (schedule ++ rest) s' hs'
    refine ⟨rest, s'.report, ?_⟩
    simp only [runLoadTest, hs', hret, hinv'.no_panic, and_self, if_true]
  obtain ⟨s0, h0, _⟩ := inv_start maxChanCap config hr hm hc
  have hreach0 : reach maxChanCap config [] = some s0 := by
    simp only [reach, h0, exec]
  refine ⟨⟨s0, h0, hreach0⟩, ?_, total, ?_⟩
  · obtain ⟨rest, report, hrun⟩ := extend [] s0 hreach0
    exact ⟨[] ++ rest, report, hrun, (total _ report hrun).1⟩
  · intro schedule s hs
    obtain ⟨hinv, hcfg, _, hlen, _⟩ := reach_inv maxChanCap config hr hc schedule s hs
    have hnn := stepsLeft_nonneg s hinv
    refine ⟨hinv.no_panic, by omega, ?_, progress s hinv, extend schedule s hs⟩
    intro hret
    have htot := returned_total s hinv hret
    obtain ⟨hcl, hb⟩ := hinv.at_return hret
    have hwg := hinv.closed_wg hcl
    rw [hinv.wg_eq] at hwg
    have hdone := pending_zero s.pool hwg
    have hne : ∀ i, s.pc ≠ .spawning i := by
      intro i hi
      rw [hret] at hi
      exact MainPc.noConfusion hi
    have hj : s.pool.map Worker.j = s.pool.map Worker.requests :=
      List.map_congr_left (fun w hw => (hinv.worker_j w hw).2.2 (hdone w hw))
    have hq := pool_quotas maxChanCap s hinv (by rw [hcfg]; exact hm)
      (hinv.past_spawn hne).1
    have hse := hinv.sent_eq
    rw [hb] at hse
    simp only [List.length_nil] at hse
    rw [hcfg] at htot hq
    refine ⟨htot, by rw [hj]; exact hq, ?_, hb⟩
    push_cast at hse
    omega

theorem runLoadTest_total_requests_witness :
    runLoadTest maxChanCap64 ⟨"http://localhost:8080", 3, 2⟩ sampleSchedule =
      some ⟨42, 3, [(200, 1), (500, 1)], 1⟩ ∧
    (⟨42, 3, [(200, 1), (500, 1)], 1⟩ : Report).TotalRequests = 3 :=
  ⟨by decide,
    ((runLoadTest_total_requests maxChanCap64 ⟨"http://localhost:8080", 3, 2⟩
      (by decide) (by decide) (by decide)).2.2.1
      sampleSchedule ⟨42, 3, [(200, 1), (500, 1)], 1⟩ (by decide)).1⟩

/-- C2 as stated fails: for the valid configuration requests = 2^62,
concurrency = 1 the call `make(chan Result, config.Requests)` of line 66
panics, so under no schedule does runLoadTest return a report. -/
theorem runLoadTest_total_requests_counterexample :
    start maxChanCap64 ⟨"http://localhost:8080", 4611686018427387904, 1⟩ = none ∧
    ¬ ∃ schedule report,
      runLoadTest maxChanCap64 ⟨"http://localhost:8080", 4611686018427387904, 1⟩ schedule =
        some report ∧
      report.TotalRequests = 4611686018427387904 := by
  have h0 := start_none maxChanCap64 ⟨"http://localhost:8080", 4611686018427387904, 1⟩ (by decide)
  refine ⟨h0, ?_⟩
  rintro ⟨schedule, report, h, _⟩
  simp only [runLoadTest, reach, h0] at h
  exact Option.noConfusion h

/-- C10: in every state reached by a run of runLoadTest with requests >= 1 and
concurrency >= 1, the number of results sent to the channel is at most its
capacity config.Requests, the buffer holds at most the results sent, and a
worker standing at its send statement finds the channel open with a free slot:
its send happens, whatever was received so far and whatever the result. -/
theorem send_never_blocks (maxChanCap : Int) (config : Config)
    (hr : 1 ≤ config.Requests) (hc : 1 ≤ config.Concurrency)
    (schedule : List Action) (s : State)
    (h : reach maxChanCap config schedule = some s) :
    s.cap = config.Requests ∧ sent s ≤ s.cap ∧ (s.buf.length : Int) ≤ sent s ∧
    ∀ (k : Nat) (w : Worker), s.pool[k]? = some w → w.j < w.requests →
      sent s < s.cap ∧ (s.buf.length : Int) < s.cap ∧ s.closed = false ∧
      ∀ result, step s (.send k result) =
        some { s with
          buf := s.buf ++ [result]
          pool := s.pool.set k { w with j := w.j + 1 } } := by
  obtain ⟨hinv, hcfg, _⟩ := reach_inv maxChanCap config hr hc schedule s h
  have hcap : s.cap = config.Requests := by rw [hinv.cap_eq, hcfg]
  have h1 := sent_le s hinv
  have h2 := (sum_requests_le s hinv).1
  have h3 := hinv.sent_eq
  have h4 := hinv.received
  rw [hcfg] at h2
  refine ⟨hcap, by omega, by omega, ?_⟩
  intro k w hk hj
  obtain ⟨hd, hopen, hfree⟩ := send_ready s hinv k w hk hj
  have hlt := sent_lt s hinv k w hk hj
  rw [hcfg] at hlt
  refine ⟨by omega, hfree, hopen, ?_⟩
  intro result
  unfold step
  rw [if_neg (show ¬ s.panicked = true by rw [hinv.no_panic]; decide)]
  simp only [hk]
  rw [if_neg (show ¬ w.done = true by rw [hd]; decide), if_pos hj,
    if_neg (show ¬ s.closed = true by rw [hopen]; decide), if_pos hfree]

theorem send_never_blocks_witness :
    ∃ s, reach maxChanCap64 ⟨"http://localhost:8080", 3, 2⟩ (sampleSchedule.take 4) =
        some s ∧
      s.cap = 3 ∧ sent s ≤ s.cap ∧ (s.buf.length : Int) ≤ sent s ∧
      ∀ (k : Nat) (w : Worker), s.pool[k]? = some w → w.j < w.requests →
        sent s < s.cap ∧ (s.buf.length : Int) < s.cap ∧ s.closed = false ∧
        ∀ result, step s (.send k result) =
          some { s with
            buf := s.buf ++ [result]
            pool := s.pool.set k { w with j := w.j + 1 } } :=
  ⟨_, rfl,
    send_never_blocks maxChanCap64 ⟨"http://localhost:8080", 3, 2⟩ (by decide) (by decide)
      (sampleSchedule.take 4) _ rfl⟩

end StressTest
